import Mathlib

/-!
# bshell: a verification development

A shallow embedding of `src/bshell.c` (tokenizer, builtin table, builtin
handlers, process launcher, dispatcher and read-eval loop) together with
theorems about it.

Conventions of the embedding:

* a C string is the list of its characters, one `Char` per C `char`; the
  terminating NUL is not part of the list, and where the source hands a
  raw buffer to a string function the function stops at the first NUL;
* an argument vector `char **args` (NULL terminated) is the list of its
  strings;
* the C type `int` has 32 bits, `size_t` has 64 bits and a pointer takes 8
  bytes; the `int` counters of the tokenizer hold non-negative values, and an
  addition whose result exceeds `INT_MAX` is a signed overflow, which C
  leaves undefined: the model stops there with a fault;
* `malloc`/`realloc` succeed or fail as the environment says;
* the outcomes of system calls are supplied by an environment record, so
  that a statement quantified over the environment covers every outcome.
-/

namespace BShell

/-! ## C strings -/

/-- A C string: its characters, without the terminating NUL. -/
abbrev CStr := List Char

/-- The NUL character that terminates a C string. -/
def NUL : Char := Char.ofNat 0

/-- The characters of a string literal. -/
def str (s : String) : CStr := s.toList

/-- Source: `#define BSH_TOK_BUFSIZE 64`. -/
def BSH_TOK_BUFSIZE : Nat := 64

/-- Source: `#define BSH_TOK_DELIM " \t\r\n\a"` (space, tab, carriage
return, newline, bell). -/
def BSH_TOK_DELIM : List Char :=
  [Char.ofNat 32, Char.ofNat 9, Char.ofNat 13, Char.ofNat 10, Char.ofNat 7]

/-- Whether the pointer `s` points at the terminating NUL (`*s == 0`): the
buffer is used up or its next character is NUL. -/
def atNul : List Char → Bool
  | [] => true
  | c :: _ => c == NUL

/-- C library `strspn(s, accept)`: length of the initial segment of `s`
made only of characters of `accept`; the scan stops at NUL. -/
def strspn (s : List Char) (accept : List Char) : Nat :=
  (s.takeWhile (fun c => c != NUL && accept.contains c)).length

/-- C library `strcspn(s, reject)`: length of the initial segment of `s`
made only of characters not in `reject`; the scan stops at NUL. -/
def strcspn (s : List Char) (reject : List Char) : Nat :=
  (s.takeWhile (fun c => c != NUL && !reject.contains c)).length

/-- C library `strtok`, with the saved pointer made explicit: `s` is the
buffer from the current scan position on.  Returns `none` for NULL (no
token left), else the token and the buffer from the new saved position on.
The delimiter that ends the token is overwritten with NUL and skipped. -/
def strtok (s : List Char) (delim : List Char) : Option (CStr × List Char) :=
  let s1 := s.drop (strspn s delim)
  if atNul s1 then none
  else
    let n := strcspn s1 delim
    let token := s1.take n
    let e := s1.drop n
    if atNul e then some (token, e) else some (token, e.drop 1)

/-! ## Argument vectors and the specification of the tokenizer -/

/-- One cell of the `char **tokens` array. -/
inductive Cell where
  | uninit : Cell
  | null : Cell
  | tok (t : CStr) : Cell
  deriving DecidableEq, Repr

/-- What can go wrong inside the interpreter process. -/
inductive Fault where
  /-- a store or load outside the allocated object -/
  | outOfBounds : Fault
  /-- a NULL pointer handed to code that dereferences it -/
  | nullDeref : Fault
  /-- an `int` addition whose result does not fit the type -/
  | signedOverflow : Fault
  /-- the model ran out of fuel (never happens, see the theorems) -/
  | fuel : Fault
  deriving DecidableEq, Repr

/-- The argument vector held by a NULL terminated array: the strings before
the first cell that is not a string. -/
def argv : List Cell → List CStr
  | Cell.tok t :: rest => t :: argv rest
  | _ => []

/-- Delimiter test: membership in `BSH_TOK_DELIM`. -/
def isDelim (c : Char) : Bool := BSH_TOK_DELIM.contains c

/-- Specification of the tokenizer, in the spec's words: the maximal runs of
non-delimiter characters of the line, in order: cut the line at every
delimiter and keep the pieces that are not empty. -/
def nonDelimRuns (line : List Char) : List CStr :=
  (line.splitOnP isDelim).filter (fun t => !t.isEmpty)

/-! ## The process state and the outcomes of system calls -/

/-- What `fork` returns: 0 in the child, a negative value on failure, the
child's pid in the parent. -/
inductive ForkResult where
  | child : ForkResult
  | failed : ForkResult
  | parent (pid : Nat) : ForkResult
  deriving DecidableEq, Repr

/-- The child status that `waitpid(pid, &status, WUNTRACED)` leaves in
`status`: the child exited, was killed by a signal, or is stopped. -/
inductive WaitStatus where
  | exited (code : Nat) : WaitStatus
  | signaled (sig : Nat) : WaitStatus
  | stopped (sig : Nat) : WaitStatus
  deriving DecidableEq, Repr

/-- The `WIFEXITED` test of `<sys/wait.h>`. -/
def WIFEXITED : WaitStatus → Bool
  | .exited _ => true
  | _ => false

/-- The `WIFSIGNALED` test of `<sys/wait.h>`. -/
def WIFSIGNALED : WaitStatus → Bool
  | .signaled _ => true
  | _ => false

/-- The `WIFSTOPPED` test of `<sys/wait.h>`. -/
def WIFSTOPPED : WaitStatus → Bool
  | .stopped _ => true
  | _ => false

/-- The state of the interpreter process and of the file system it sees.
`mkdirs` is a ghost record of the paths handed to `mkdir(2)`, in order, and
`waits` a ghost record of the statuses that the `waitpid` calls made have
reported, in order. -/
structure World where
  out : List Char
  err : List Char
  fs : List CStr
  cwd : CStr
  mkdirs : List CStr
  waits : List WaitStatus
  deriving DecidableEq, Repr

/-- `printf`/`fprintf(stdout, ...)` of an already formatted text. -/
def World.print (w : World) (s : List Char) : World := { w with out := w.out ++ s }

/-- `fprintf(stderr, ...)` of an already formatted text. -/
def World.eprint (w : World) (s : List Char) : World := { w with err := w.err ++ s }

/-- The outcomes of the system and library calls that the interpreter makes
while it runs one command. -/
structure Env where
  /-- `chdir(path)` from the given working directory: the new one, or failure -/
  chdir : CStr → CStr → Option CStr
  /-- whether `getcwd(NULL, 0)` succeeds -/
  getcwd_ok : Bool
  /-- `opendir`/`readdir`: the entry names in the order read, or failure -/
  opendir : CStr → Option (List CStr)
  /-- whether `fopen(path, "w")` succeeds -/
  fopen_w : CStr → Bool
  /-- `fopen(path, "rb")`: the content of the file, or failure -/
  fopen_r : CStr → Option (List Char)
  /-- `getpwuid(getuid())`: the `pw_name` of the entry, or NULL -/
  getpwuid : Option CStr
  /-- the string found in the buffer after `gethostname` -/
  gethostname : CStr
  /-- the result of `fork()` -/
  fork : ForkResult
  /-- whether `execvp` replaces the process image (child only) -/
  execvp_ok : List CStr → Bool
  /-- the statuses reported by the successive `waitpid` calls -/
  waitpid : List WaitStatus
  /-- whether `mkdir(path, 0700)` succeeds on a path that does not exist,
  given the paths that do -/
  mkdir_ok : List CStr → CStr → Bool
  /-- the message that `perror` prints for the current `errno` -/
  strerror : CStr
  /-- whether `malloc` or `realloc` of that many bytes succeeds -/
  alloc_ok : Nat → Bool

/-- C library `perror(s)`. -/
def perror (env : Env) (s : CStr) (w : World) : World :=
  w.eprint (s ++ str ": " ++ env.strerror ++ str "\n")

/-- Ways in which control does not come back to the caller. -/
inductive Stop where
  /-- the process terminates through `exit(code)` -/
  | exit (code : Nat) : Stop
  /-- `execvp` replaced the process image -/
  | exec : Stop
  /-- undefined behaviour -/
  | fault (f : Fault) : Stop
  /-- `waitpid` never reports a terminal status -/
  | hang : Stop
  deriving DecidableEq, Repr

/-- Result of running a handler: it returns a status, or control is lost. -/
inductive Outcome where
  | ret (status : Int) (w : World) : Outcome
  | stop (how : Stop) (w : World) : Outcome
  deriving DecidableEq, Repr

/-- Whether a handler returns to its caller. -/
def Outcome.isRet : Outcome → Bool
  | .ret _ _ => true
  | .stop _ _ => false

def EXIT_SUCCESS : Nat := 0

def EXIT_FAILURE : Nat := 1

/-- The read of `args[1]`: past the terminator when the vector is empty,
NULL when it has one string. -/
def arg1 : List CStr → Except Fault (Option CStr)
  | [] => .error .outOfBounds
  | [_] => .ok none
  | _ :: a :: _ => .ok (some a)

/-! ## The tokenizer `bsh_split_line` -/

/-- The largest value of the C type `int`. -/
def INT_MAX : Nat := 2147483647

/-- The largest value of the C type `size_t`. -/
def SIZE_MAX : Nat := 18446744073709551615

/-- The value of `sizeof(char *)`. -/
def SIZEOF_PTR : Nat := 8

/-- The sum of two non-negative `int` values; a result above `INT_MAX` is a
signed overflow. -/
def int_add (a b : Nat) : Except Fault Nat :=
  if a + b ≤ INT_MAX then .ok (a + b) else .error .signedOverflow

/-- The product `bufsize * sizeof(char *)`, which C computes in `size_t`. -/
def alloc_bytes (bufsize : Nat) : Nat := (bufsize * SIZEOF_PTR) % (SIZE_MAX + 1)

/-- C library `malloc(bytes)` for an array of pointers: NULL, or an array
of uninitialised cells. -/
def malloc (env : Env) (bytes : Nat) : Option (List Cell) :=
  if env.alloc_ok bytes then some (List.replicate (bytes / SIZEOF_PTR) Cell.uninit) else none

/-- C library `realloc(tokens, bytes)`: NULL, or an array that keeps the
first cells, the new cells being uninitialised. -/
def realloc (env : Env) (cells : List Cell) (bytes : Nat) : Option (List Cell) :=
  if env.alloc_ok bytes then
    some (cells.take (bytes / SIZEOF_PTR)
      ++ List.replicate (bytes / SIZEOF_PTR - cells.length) Cell.uninit)
  else none

/-- The local state of `bsh_split_line`: the array `tokens` (as many cells
as were allocated), `bufsize`, `position`, and a ghost record of the pair
`(position, bufsize)` at every store `tokens[position] = ...`. -/
structure TokBuf where
  tokens : List Cell
  bufsize : Nat
  position : Nat
  stores : List (Nat × Nat)
  deriving DecidableEq, Repr

/-- What `bsh_split_line` does: it returns (the final local state is kept,
the returned pointer is its `tokens` array), or control is lost. -/
inductive SplitResult where
  | ok (b : TokBuf) : SplitResult
  | stop (how : Stop) (w : World) : SplitResult
  deriving DecidableEq, Repr

/-- The branch `if (!tokens)` of `bsh_split_line`: the message on standard
error, then `exit(EXIT_FAILURE)`. -/
def alloc_error (w : World) : SplitResult :=
  .stop (.exit EXIT_FAILURE) (w.eprint (str "bsh: allocation error\n"))

/-- The store `tokens[position] = v`, checked against the allocation. -/
def TokBuf.store (b : TokBuf) (v : Cell) : Except Fault TokBuf :=
  if b.position < b.tokens.length then
    .ok { b with tokens := b.tokens.set b.position v,
                 stores := b.stores ++ [(b.position, b.bufsize)] }
  else .error .outOfBounds

/-- The body of the `while (token != NULL)` loop up to the next `strtok`:
store the token, advance `position`, and when the array is full add
`BSH_TOK_BUFSIZE` to `bufsize` and reallocate. -/
def TokBuf.push (env : Env) (b : TokBuf) (token : CStr) (w : World) : SplitResult :=
  match b.store (Cell.tok token) with
  | .error f => .stop (.fault f) w
  | .ok b1 =>
    match int_add b1.position 1 with
    | .error f => .stop (.fault f) w
    | .ok position =>
      if position ≥ b1.bufsize then
        match int_add b1.bufsize BSH_TOK_BUFSIZE with
        | .error f => .stop (.fault f) w
        | .ok bufsize =>
          match realloc env b1.tokens (alloc_bytes bufsize) with
          | none => alloc_error w
          | some tokens =>
            .ok { b1 with position := position, bufsize := bufsize, tokens := tokens }
      else
        .ok { b1 with position := position }

/-- The `while (token != NULL)` loop of `bsh_split_line`; `token` is the
result of the latest `strtok` call. -/
def split_loop (env : Env) :
    Nat → Option (CStr × List Char) → TokBuf → World → SplitResult
  | 0, _, _, w => .stop (.fault .fuel) w
  | _ + 1, none, b, _ => .ok b
  | fuel + 1, some (token, save), b, w =>
    match b.push env token w with
    | .stop s w1 => .stop s w1
    | .ok b1 => split_loop env fuel (strtok save BSH_TOK_DELIM) b1 w

/-- Source: `bsh_split_line`. -/
def bsh_split_line (env : Env) (line : List Char) (w : World) : SplitResult :=
  let bufsize := BSH_TOK_BUFSIZE
  match malloc env (alloc_bytes bufsize) with
  | none => alloc_error w
  | some tokens =>
    match split_loop env (line.length + 1) (strtok line BSH_TOK_DELIM)
        { tokens := tokens, bufsize := bufsize, position := 0, stores := [] } w with
    | .stop s w1 => .stop s w1
    | .ok b =>
      match b.store Cell.null with
      | .error f => .stop (.fault f) w
      | .ok b1 => .ok b1

/-- The tokens that the successive `strtok` calls of `bsh_split_line`
return, in order (`token` is the result of the latest call). -/
def toks : Nat → Option (CStr × List Char) → List CStr
  | 0, _ => []
  | _ + 1, none => []
  | fuel + 1, some (token, save) => token :: toks fuel (strtok save BSH_TOK_DELIM)

/-- The tokens of a line: what the `strtok` calls of `bsh_split_line`
return on it. -/
def line_tokens (line : List Char) : List CStr :=
  toks (line.length + 1) (strtok line BSH_TOK_DELIM)

/-- Whether the allocations that `bsh_split_line` asks for on a line of `n`
tokens all succeed: `malloc` of 64 cells, then `realloc` to 128, 192, ...
cells, up to `64 * (n / 64 + 1)` cells. -/
def allocOk (env : Env) (n : Nat) : Bool :=
  (List.range (n / BSH_TOK_BUFSIZE + 1)).all
    (fun j => env.alloc_ok (alloc_bytes (BSH_TOK_BUFSIZE * (j + 1))))

/-- The number of tokens from which `bufsize += BSH_TOK_BUFSIZE` overflows:
with that many tokens stored, `bufsize` is `INT_MAX - 63` and has to grow. -/
def TOKENS_OVERFLOW : Nat := INT_MAX - 63

/-! ## The builtin handlers -/

/-- Source: `bsh_cd`. -/
def bsh_cd (env : Env) (args : List CStr) (w : World) : Outcome :=
  match arg1 args with
  | .error f => .stop (.fault f) w
  | .ok none => .ret 1 (w.eprint (str "bsh: expected argument to \"cd\"\n"))
  | .ok (some path) =>
    match env.chdir w.cwd path with
    | some d => .ret 1 { w with cwd := d }
    | none => .ret 1 (perror env (str "bsh") w)

/-- Source: `bsh_pwd`. -/
def bsh_pwd (env : Env) (_args : List CStr) (w : World) : Outcome :=
  if env.getcwd_ok then .ret 1 (w.print (w.cwd ++ str "\n"))
  else .ret 1 (perror env (str "failed to get current directory\n") w)

/-- The `readdir` loop of `bsh_ls`. -/
def ls_loop : List CStr → World → World
  | [], w => w
  | d_name :: rest, w =>
    if d_name ≠ str "." ∧ d_name ≠ str ".." then ls_loop rest (w.print (d_name ++ str "\n"))
    else ls_loop rest w

/-- Source: `bsh_ls`. -/
def bsh_ls (env : Env) (args : List CStr) (w : World) : Outcome :=
  match arg1 args with
  | .error f => .stop (.fault f) w
  | .ok a =>
    match env.opendir (a.getD (str ".")) with
    | none => .ret 1 (perror env (str "bsh") w)
    | some entries => .ret 1 (ls_loop entries w)

/-- Source: `bsh_touch`.  The result of `fopen` goes to `fclose` unchecked. -/
def bsh_touch (env : Env) (args : List CStr) (w : World) : Outcome :=
  match arg1 args with
  | .error f => .stop (.fault f) w
  | .ok none => .ret 1 (w.eprint (str "bsh: expected argument to \"touch\"\n"))
  | .ok (some path) =>
    if env.fopen_w path then
      .ret 1 { w with fs := if path ∈ w.fs then w.fs else w.fs ++ [path] }
    else .stop (.fault .nullDeref) w

/-- The `while (*++args)` loop of `bsh_mkdir`: `stat` fails exactly on the
paths that do not exist, and then `mkdir` is called. -/
def mkdir_loop (env : Env) : List CStr → World → World
  | [], w => w
  | path :: rest, w =>
    if path ∈ w.fs then mkdir_loop env rest w
    else if env.mkdir_ok w.fs path then
      mkdir_loop env rest { w with fs := w.fs ++ [path], mkdirs := w.mkdirs ++ [path] }
    else mkdir_loop env rest { w with mkdirs := w.mkdirs ++ [path] }

/-- Source: `bsh_mkdir`. -/
def bsh_mkdir (env : Env) (args : List CStr) (w : World) : Outcome :=
  match args with
  | [] => .stop (.fault .outOfBounds) w
  | _ :: rest => .ret 1 (mkdir_loop env rest w)

/-- The `while (*++args)` loop of `bsh_echo`. -/
def echo_loop : List CStr → World → World
  | [], w => w
  | a :: rest, w =>
    let w1 := w.print a
    if rest ≠ [] then echo_loop rest (w1.print (str " ")) else echo_loop rest w1

/-- Source: `bsh_echo`. -/
def bsh_echo (args : List CStr) (w : World) : Outcome :=
  match args with
  | [] => .stop (.fault .outOfBounds) w
  | _ :: rest => .ret 1 ((echo_loop rest w).print (str "\n"))

/-- The scan of `fgets`: at most `k` characters, ending after a newline. -/
def fgets_scan : Nat → List Char → List Char × List Char
  | 0, s => ([], s)
  | _ + 1, [] => ([], [])
  | k + 1, c :: cs =>
    if c = Char.ofNat 10 then ([c], cs)
    else ((c :: (fgets_scan k cs).1), (fgets_scan k cs).2)

/-- C library `fgets(buffer, size, stream)` on the unread part of a stream:
NULL at end of file, else the characters stored and the rest of the stream. -/
def fgets (size : Nat) (stream : List Char) : Option (List Char × List Char) :=
  if stream = [] then none else some (fgets_scan (size - 1) stream)

/-- C library `strlen`. -/
def strlen (buffer : List Char) : Nat := (buffer.takeWhile (fun c => c != NUL)).length

/-- The string that `%s` prints from a buffer: up to the first NUL. -/
def cstr (buffer : List Char) : CStr := buffer.takeWhile (fun c => c != NUL)

/-- The `while (fgets(...))` loop of `bsh_cat`. -/
def cat_loop (bufferSize : Nat) : Nat → List Char → World → Except Fault World
  | 0, _, _ => .error .fuel
  | fuel + 1, stream, w =>
    match fgets bufferSize stream with
    | none => .ok w
    | some (buffer, rest) =>
      let length := strlen buffer
      if length = 0 then .error .outOfBounds
      else cat_loop bufferSize fuel rest
        (w.print (cstr (buffer.set (length - 1) NUL) ++ str "\n"))

/-- Source: `bsh_cat`. -/
def bsh_cat (env : Env) (args : List CStr) (w : World) : Outcome :=
  match arg1 args with
  | .error f => .stop (.fault f) w
  | .ok none => .ret 1 (w.eprint (str "bsh: expected argument to \"cat\"\n"))
  | .ok (some path) =>
    let bufferSize := 4096
    match env.fopen_r path with
    | none => .ret 1 (perror env (str "bsh") w)
    | some content =>
      match cat_loop bufferSize (content.length + 1) content w with
      | .error f => .stop (.fault f) w
      | .ok w1 => .ret 1 w1

/-- Source: `bsh_whoami`.  The result of `getpwuid` is dereferenced
unchecked. -/
def bsh_whoami (env : Env) (_args : List CStr) (w : World) : Outcome :=
  match env.getpwuid with
  | none => .stop (.fault .nullDeref) w
  | some pw_name => .ret 1 (w.print (pw_name ++ str "\n"))

/-- Source: `bsh_host`. -/
def bsh_host (env : Env) (_args : List CStr) (w : World) : Outcome :=
  .ret 1 (w.print (env.gethostname ++ str "\n"))

/-- The names of the `builtins` table, in table order. -/
def builtin_names : List CStr :=
  [str "cd", str "pwd", str "ls", str "touch", str "mkdir", str "echo", str "cat",
   str "whoami", str "host", str "help", str "exit"]

/-- The `for` loop of `bsh_help`. -/
def help_loop : List CStr → World → World
  | [], w => w
  | name :: rest, w => help_loop rest (w.print (str "  " ++ name ++ str "\n"))

/-- Source: `bsh_help`. -/
def bsh_help (_args : List CStr) (w : World) : Outcome :=
  let w1 := w.print (str "Awesome bsh\n")
  let w2 := w1.print (str "Type program names and arguments, and hit enter.\n")
  let w3 := w2.print (str "The following are built in:\n")
  let w4 := help_loop builtin_names w3
  .ret 1 (w4.print (str "Use the man command for information on other programs.\n"))

/-- Source: `bsh_exit`. -/
def bsh_exit (_args : List CStr) (w : World) : Outcome := .ret 0 w

/-! ## The process launcher -/

/-- The `do ... while (!WIFEXITED(status) && !WIFSIGNALED(status))` loop of
`bsh_launch` over the statuses that the successive `waitpid` calls report:
every call made is recorded in `waits`; the result says whether the loop
ends (it does not when the statuses are used up: the next `waitpid` never
returns). -/
def wait_loop : List WaitStatus → World → Bool × World
  | [], w => (false, w)
  | status :: rest, w =>
    let w1 := { w with waits := w.waits ++ [status] }
    if !WIFEXITED status && !WIFSIGNALED status then wait_loop rest w1
    else (true, w1)

/-- Source: `bsh_launch`. -/
def bsh_launch (env : Env) (args : List CStr) (w : World) : Outcome :=
  match env.fork with
  | .child =>
    if env.execvp_ok args then .stop .exec w
    else .stop (.exit EXIT_FAILURE) (perror env (str "bsh") w)
  | .failed => .ret 1 (perror env (str "bsh") w)
  | .parent _ =>
    match wait_loop env.waitpid w with
    | (false, w1) => .stop .hang w1
    | (true, w1) => .ret 1 w1

/-! ## The dispatcher -/

/-- Source: `struct Builtin`. -/
structure Builtin where
  name : CStr
  func : List CStr → World → Outcome

/-- Source: the table `builtins`. -/
def builtins (env : Env) : List Builtin :=
  [ ⟨str "cd", bsh_cd env⟩,
    ⟨str "pwd", bsh_pwd env⟩,
    ⟨str "ls", bsh_ls env⟩,
    ⟨str "touch", bsh_touch env⟩,
    ⟨str "mkdir", bsh_mkdir env⟩,
    ⟨str "echo", bsh_echo⟩,
    ⟨str "cat", bsh_cat env⟩,
    ⟨str "whoami", bsh_whoami env⟩,
    ⟨str "host", bsh_host env⟩,
    ⟨str "help", bsh_help⟩,
    ⟨str "exit", bsh_exit⟩ ]

/-- Source: `bsh_num_builtins`. -/
def bsh_num_builtins (env : Env) : Nat := (builtins env).length

/-- The `for` loop of `bsh_execute` over the entries not yet compared;
`strcmp(args[0], name) == 0` is equality of the two strings. -/
def execute_scan (launch : List CStr → World → Outcome) (arg0 : CStr) (args : List CStr)
    (w : World) : List Builtin → Outcome
  | [] => launch args w
  | b :: rest =>
    if arg0 = b.name then b.func args w else execute_scan launch arg0 args w rest

/-- Source: `bsh_execute`, over a table and a launcher. -/
def bsh_execute (table : List Builtin) (launch : List CStr → World → Outcome)
    (args : List CStr) (w : World) : Outcome :=
  match args with
  | [] => .ret 1 w
  | arg0 :: _ => execute_scan launch arg0 args w table

/-- The dispatcher of the program: `bsh_execute` over `builtins` and
`bsh_launch`. -/
def execute (env : Env) (args : List CStr) (w : World) : Outcome :=
  bsh_execute (builtins env) (bsh_launch env) args w

/-! ## The read-eval loop -/

/-- How standard input ends after its last line: at end of file, or with a
read error. -/
inductive ReadEnd where
  | eof : ReadEnd
  | error : ReadEnd
  deriving DecidableEq, Repr

/-- Source: `bsh_read_line`, the branch `getline(...) == -1` taken when
standard input holds no further line: the process exits, with
`EXIT_SUCCESS` at end of file.  (When a line is there, `bsh_read_line`
returns it.) -/
def bsh_read_line (env : Env) (ending : ReadEnd) (w : World) : Stop × World :=
  match ending with
  | .eof => (.exit EXIT_SUCCESS, w)
  | .error => (.exit EXIT_FAILURE, perror env (str "bsh: getline\n") w)

/-- A run of `bsh_loop`: the argument vectors handed to `bsh_execute`, in
order (ghost), the lines never read (ghost), the final state, and how
control left the loop: `none` when `bsh_loop` returned. -/
structure LoopRun where
  dispatched : List (List CStr)
  unread : List (List Char)
  world : World
  stop : Option Stop
  deriving DecidableEq, Repr

/-- Source: `bsh_loop`.  `env n` gives the outcomes of the system calls
during the iteration that is `n` iterations away from the first one. -/
def bsh_loop (env : Nat → Env) (ending : ReadEnd) : List (List Char) → Nat → World → LoopRun
  | [], n, w =>
    let e := bsh_read_line (env n) ending (w.print (str "> "))
    { dispatched := [], unread := [], world := e.2, stop := some e.1 }
  | line :: rest, n, w =>
    let w0 := w.print (str "> ")
    match bsh_split_line (env n) line w0 with
    | .stop s w1 => { dispatched := [], unread := rest, world := w1, stop := some s }
    | .ok b =>
      let args := argv b.tokens
      match execute (env n) args w0 with
      | .stop s w1 => { dispatched := [args], unread := rest, world := w1, stop := some s }
      | .ret status w1 =>
        if status ≠ 0 then
          let r := bsh_loop env ending rest (n + 1) w1
          { r with dispatched := args :: r.dispatched }
        else { dispatched := [args], unread := rest, world := w1, stop := none }

/-- Source: `main`: the exit code of the process, `none` when the process
does not end through `exit` or a return from `main`. -/
def main (env : Nat → Env) (ending : ReadEnd) (stdin : List (List Char)) (w : World) :
    Option Nat :=
  match (bsh_loop env ending stdin 0 w).stop with
  | none => some EXIT_SUCCESS
  | some (.exit code) => some code
  | some _ => none

/-! ## Sample states and environments -/

/-- A state with nothing written, no path in the file system, the working
directory `/`. -/
def world0 : World :=
  { out := [], err := [], fs := [], cwd := str "/", mkdirs := [], waits := [] }

/-- The parent directory named by a path: what precedes its last `/`,
empty when the path has no `/`. -/
def dirname (path : CStr) : CStr :=
  ((path.reverse.dropWhile (fun c => c != Char.ofNat 47)).drop 1).reverse

/-- The rule of `mkdir(2)` for a path that does not exist: the call
succeeds when the parent directory exists (a path without `/` lies in the
working directory, which exists) and fails with ENOENT otherwise. -/
def mkdir_parent_rule (fs : List CStr) (path : CStr) : Bool :=
  dirname path = [] || decide (dirname path ∈ fs)

/-- An environment in which the calls succeed: the file opened by `cat`
holds `abc` without a final newline, the child is stopped once and then
exits, `mkdir` follows `mkdir_parent_rule`, every allocation succeeds. -/
def envOk : Env :=
  { chdir := fun _ path => some path
    getcwd_ok := true
    opendir := fun _ => some [str ".", str "..", str "notes.txt"]
    fopen_w := fun _ => true
    fopen_r := fun _ => some (str "abc")
    getpwuid := some (str "user")
    gethostname := str "localhost"
    fork := .parent 1
    execvp_ok := fun _ => true
    waitpid := [.stopped 19, .exited 0]
    mkdir_ok := mkdir_parent_rule
    strerror := str "Success"
    alloc_ok := fun _ => true }

/-- An environment in which the calls fail. -/
def envFail : Env :=
  { chdir := fun _ _ => none
    getcwd_ok := false
    opendir := fun _ => none
    fopen_w := fun _ => false
    fopen_r := fun _ => none
    getpwuid := none
    gethostname := []
    fork := .failed
    execvp_ok := fun _ => false
    waitpid := []
    mkdir_ok := fun _ _ => false
    strerror := str "No such file or directory"
    alloc_ok := fun _ => false }

/-! ## Two calls of `bsh_mkdir` in succession -/

/-- Whether the first token of a line is `exit`. -/
def isExitLine (line : List Char) : Bool :=
  match line_tokens line with
  | a :: _ => decide (a = str "exit")
  | [] => false

/-- The number of lines before the first line whose first token is `exit`
(the number of all lines when there is none). -/
def linesBeforeExit (lines : List (List Char)) : Nat :=
  (lines.takeWhile (fun l => !isExitLine l)).length

/-- An environment like `envOk` in which the file opened by `cat` holds one
line of 5000 characters `x`, ended by a newline. -/
def envLongLine : Env :=
  { envOk with
    fopen_r := fun _ => some (List.replicate (4095 + 905) (Char.ofNat 120) ++ [Char.ofNat 10]) }

/-- An environment like `envOk` in which the child launched never reaches a
terminal state: `waitpid` reports that it is stopped, and nothing after. -/
def envChildNeverEnds : Env := { envOk with waitpid := [.stopped 19] }

/-! ## Notions used in the proofs on the tokenizer -/

/-- Capacity of the token array once `k` tokens are stored. -/
def capAt (k : Nat) : Nat := BSH_TOK_BUFSIZE * (k / BSH_TOK_BUFSIZE + 1)

/-- The local state of `bsh_split_line` once the tokens `ds` are stored. -/
def bufAt (ds : List CStr) : TokBuf :=
  { tokens := ds.map Cell.tok ++ List.replicate (capAt ds.length - ds.length) Cell.uninit
    bufsize := capAt ds.length
    position := ds.length
    stores := (List.range ds.length).map (fun i => (i, capAt i)) }

/-- The local state with which `bsh_split_line` returns once the tokens
`ds` are stored: the NULL terminator sits at index `ds.length`. -/
def finalBuf (ds : List CStr) : TokBuf :=
  { tokens := ds.map Cell.tok ++ Cell.null
      :: List.replicate (capAt ds.length - ds.length - 1) Cell.uninit
    bufsize := capAt ds.length
    position := ds.length
    stores := (List.range (ds.length + 1)).map (fun i => (i, capAt i)) }

/-- Fuel that the loop needs from a given `strtok` result. -/
def need : Option (CStr × List Char) → Nat
  | none => 1
  | some (_, save) => save.length + 2

/-- Storing a list of tokens one after the other. -/
def pushAll (env : Env) : List CStr → TokBuf → World → SplitResult
  | [], b, _ => .ok b
  | t :: ts, b, w =>
    match b.push env t w with
    | .stop s w1 => .stop s w1
    | .ok b1 => pushAll env ts b1 w

/-- How storing one more token ends when `k` tokens are stored and control
is lost: `none` when the token is stored and the loop goes on. -/
def pushStep (env : Env) (k : Nat) (w : World) : Option (Stop × World) :=
  if INT_MAX < k + 1 then some (.fault .signedOverflow, w)
  else if capAt k ≤ k + 1 then
    if INT_MAX < capAt k + BSH_TOK_BUFSIZE then some (.fault .signedOverflow, w)
    else if env.alloc_ok (alloc_bytes (capAt k + BSH_TOK_BUFSIZE)) then none
    else some (.exit EXIT_FAILURE, w.eprint (str "bsh: allocation error\n"))
  else none

/-- The first loss of control while `n` more tokens are stored after `k`. -/
def pushAllStop (env : Env) : Nat → Nat → World → Option (Stop × World)
  | _, 0, _ => none
  | k, n + 1, w =>
    match pushStep env k w with
    | some r => some r
    | none => pushAllStop env (k + 1) n w

/-- The first loss of control of `bsh_split_line` on a line of `n` tokens. -/
def splitStop (env : Env) (n : Nat) (w : World) : Option (Stop × World) :=
  if env.alloc_ok (alloc_bytes BSH_TOK_BUFSIZE) then pushAllStop env 0 n w
  else some (.exit EXIT_FAILURE, w.eprint (str "bsh: allocation error\n"))

/-- What `bsh_split_line` does on a line whose tokens are `ds`. -/
def splitOutcome (env : Env) (ds : List CStr) (w : World) : SplitResult :=
  match splitStop env ds.length w with
  | none => .ok (finalBuf ds)
  | some r => .stop r.1 r.2

/-! ## Lemmas on the tokenizer -/

theorem capAt_gt (k : Nat) : k < capAt k := by
  unfold capAt BSH_TOK_BUFSIZE; omega

theorem capAt_succ_full (k : Nat) (h : capAt k ≤ k + 1) : capAt (k + 1) = capAt k + 64 := by
  unfold capAt BSH_TOK_BUFSIZE at *; omega

theorem capAt_succ_room (k : Nat) (h : k + 1 < capAt k) : capAt (k + 1) = capAt k := by
  unfold capAt BSH_TOK_BUFSIZE at *; omega

theorem set_append_replicate (xs : List Cell) (m : Nat) (v : Cell) :
    (xs ++ List.replicate (m + 1) Cell.uninit).set xs.length v
      = xs ++ v :: List.replicate m Cell.uninit := by
  induction xs with
  | nil => simp [List.replicate_succ]
  | cons x xs ih => simpa using ih

theorem bufAt_push (env : Env) (ds : List CStr) (t : CStr) (w : World) :
    (bufAt ds).push env t w =
      match pushStep env ds.length w with
      | none => .ok (bufAt (ds ++ [t]))
      | some r => .stop r.1 r.2 := by
  have hlt := capAt_gt ds.length
  obtain ⟨m, hm⟩ : ∃ m, capAt ds.length - ds.length = m + 1 :=
    ⟨capAt ds.length - ds.length - 1, by omega⟩
  have hset := set_append_replicate (ds.map Cell.tok) m (Cell.tok t)
  simp only [List.length_map] at hset
  unfold TokBuf.push TokBuf.store pushStep
  simp only [bufAt, List.length_append, List.length_map, List.length_replicate]
  rw [if_pos (by omega)]
  simp only [hm, hset, int_add]
  by_cases hov : INT_MAX < ds.length + 1
  · rw [if_neg (by omega), if_pos hov]
  · rw [if_pos (by omega), if_neg hov]
    by_cases hfull : capAt ds.length ≤ ds.length + 1
    · have hc := capAt_succ_full _ hfull
      have hm0 : m = 0 := by omega
      subst hm0
      simp only [ge_iff_le, hfull, if_true]
      by_cases hov2 : INT_MAX < capAt ds.length + BSH_TOK_BUFSIZE
      · rw [if_neg (by omega), if_pos hov2]
      · rw [if_pos (by omega), if_neg hov2]
        have hbytes : alloc_bytes (capAt ds.length + BSH_TOK_BUFSIZE) / SIZEOF_PTR
            = capAt ds.length + 64 := by
          unfold alloc_bytes SIZEOF_PTR SIZE_MAX BSH_TOK_BUFSIZE
          unfold INT_MAX BSH_TOK_BUFSIZE at hov2
          omega
        cases hal : env.alloc_ok (alloc_bytes (capAt ds.length + BSH_TOK_BUFSIZE))
        · simp [realloc, hal, alloc_error]
        · simp only [realloc, hal, if_true, hbytes]
          congr 1
          simp only [TokBuf.mk.injEq, List.map_append, List.map_cons, List.map_nil,
            List.range_succ, and_true, true_and, List.replicate_zero, List.length_append,
            List.length_map, List.length_cons, List.length_nil, List.length_singleton, hc,
            BSH_TOK_BUFSIZE, List.append_nil]
          rw [List.take_of_length_le (by simp; omega)]
    · have hc := capAt_succ_room ds.length (by omega)
      simp only [ge_iff_le, hfull, if_false]
      congr 1
      simp only [TokBuf.mk.injEq, List.map_append, List.map_cons, List.map_nil, List.range_succ,
        and_true, true_and, List.append_assoc, List.singleton_append, List.length_append,
        List.length_singleton, hc]
      have : capAt ds.length - (ds.length + 1) = m := by omega
      rw [this]

theorem pushAll_bufAt (env : Env) (ts ds : List CStr) (w : World) :
    pushAll env ts (bufAt ds) w =
      match pushAllStop env ds.length ts.length w with
      | none => .ok (bufAt (ds ++ ts))
      | some r => .stop r.1 r.2 := by
  induction ts generalizing ds with
  | nil => simp [pushAll, pushAllStop]
  | cons t ts ih =>
    simp only [pushAll, bufAt_push, List.length_cons, pushAllStop]
    cases hp : pushStep env ds.length w with
    | some r => rfl
    | none =>
      simp only
      rw [ih]
      simp

theorem split_loop_eq_pushAll (env : Env) (fuel : Nat) (tk : Option (CStr × List Char))
    (b : TokBuf) (w : World)
    (h : need tk ≤ fuel) (hn : ∀ s : List Char, need (strtok s BSH_TOK_DELIM) ≤ s.length + 1) :
    split_loop env fuel tk b w = pushAll env (toks fuel tk) b w := by
  induction fuel generalizing tk b with
  | zero => cases tk <;> simp [need] at h
  | succ fuel ih =>
    cases tk with
    | none => simp [split_loop, toks, pushAll]
    | some ts =>
      obtain ⟨t, save⟩ := ts
      simp only [split_loop, toks, pushAll]
      cases hp : b.push env t w with
      | stop s w1 => rfl
      | ok b1 =>
        simp only
        apply ih
        have := hn save
        simp only [need] at h
        omega

theorem drop_takeWhile_length (p : Char → Bool) (s : List Char) :
    s.drop (s.takeWhile p).length = s.dropWhile p := by
  induction s with
  | nil => rfl
  | cons c cs ih =>
    by_cases hc : p c = true
    · simp [List.takeWhile_cons, List.dropWhile_cons, hc, ih]
    · simp [List.takeWhile_cons, List.dropWhile_cons, hc]

theorem take_takeWhile_length (p : Char → Bool) (s : List Char) :
    s.take (s.takeWhile p).length = s.takeWhile p := by
  induction s with
  | nil => rfl
  | cons c cs ih =>
    by_cases hc : p c = true
    · simp [List.takeWhile_cons, hc, ih]
    · simp [List.takeWhile_cons, hc]

theorem strtok_unfold (s delim : List Char) :
    strtok s delim =
      if atNul (s.dropWhile (fun c => c != NUL && delim.contains c)) then none
      else
        if atNul ((s.dropWhile (fun c => c != NUL && delim.contains c)).dropWhile
              (fun c => c != NUL && !delim.contains c)) then
          some ((s.dropWhile (fun c => c != NUL && delim.contains c)).takeWhile
              (fun c => c != NUL && !delim.contains c),
            (s.dropWhile (fun c => c != NUL && delim.contains c)).dropWhile
              (fun c => c != NUL && !delim.contains c))
        else
          some ((s.dropWhile (fun c => c != NUL && delim.contains c)).takeWhile
              (fun c => c != NUL && !delim.contains c),
            ((s.dropWhile (fun c => c != NUL && delim.contains c)).dropWhile
              (fun c => c != NUL && !delim.contains c)).drop 1) := by
  unfold strtok strspn strcspn
  simp only [drop_takeWhile_length, take_takeWhile_length]

theorem length_dropWhile_le (p : Char → Bool) (s : List Char) :
    (s.dropWhile p).length ≤ s.length := by
  induction s with
  | nil => simp
  | cons c cs ih =>
    by_cases hc : p c = true
    · simp only [List.dropWhile_cons, hc, if_true, List.length_cons]; omega
    · simp [List.dropWhile_cons, hc]

theorem head_dropWhile_false (p : Char → Bool) (s : List Char) (c : Char) (cs : List Char)
    (h : s.dropWhile p = c :: cs) : p c = false := by
  induction s with
  | nil => simp at h
  | cons d ds ih =>
    by_cases hd : p d = true
    · simp only [List.dropWhile_cons, hd, if_true] at h
      exact ih h
    · simp only [List.dropWhile_cons, hd] at h
      simp only [Bool.false_eq_true, if_false, List.cons.injEq] at h
      rw [← h.1]
      simpa using hd

theorem strtok_need (s : List Char) : need (strtok s BSH_TOK_DELIM) ≤ s.length + 1 := by
  rw [strtok_unfold]
  generalize hs1 : s.dropWhile (fun c => c != NUL && BSH_TOK_DELIM.contains c) = s1
  have hlen : s1.length ≤ s.length := by rw [← hs1]; exact length_dropWhile_le _ _
  cases s1 with
  | nil => simp [atNul, need]
  | cons c cs =>
    by_cases hc : c = NUL
    · simp [atNul, need, hc]
    · have hp1 := head_dropWhile_false _ s c cs hs1
      have hnd : BSH_TOK_DELIM.contains c = false := by
        simp only [Bool.and_eq_false_iff, bne_eq_false_iff_eq] at hp1
        rcases hp1 with h | h
        · exact absurd h hc
        · exact h
      have hp2 : (c != NUL && !BSH_TOK_DELIM.contains c) = true := by
        rw [hnd]; simp [hc]
      have hle := length_dropWhile_le (fun c => c != NUL && !BSH_TOK_DELIM.contains c) cs
      simp only [List.length_cons] at hlen
      have hat : atNul (c :: cs) = false := by simp [atNul, hc]
      rw [hat]
      simp only [Bool.false_eq_true, if_false, List.dropWhile_cons, hp2, if_true]
      split <;> simp only [need, List.length_drop] <;> omega

theorem takeWhile_agree (p q : Char → Bool) (s : List Char) (h : ∀ c ∈ s, p c = q c) :
    s.takeWhile p = s.takeWhile q := by
  induction s with
  | nil => rfl
  | cons c cs ih =>
    have hc := h c (by simp)
    have ih2 := ih (fun d hd => h d (by simp [hd]))
    simp only [List.takeWhile_cons, hc, ih2]

theorem dropWhile_agree (p q : Char → Bool) (s : List Char) (h : ∀ c ∈ s, p c = q c) :
    s.dropWhile p = s.dropWhile q := by
  induction s with
  | nil => rfl
  | cons c cs ih =>
    have hc := h c (by simp)
    have ih2 := ih (fun d hd => h d (by simp [hd]))
    simp only [List.dropWhile_cons, hc, ih2]

theorem mem_of_mem_dropWhile (p : Char → Bool) (s : List Char) (c : Char)
    (h : c ∈ s.dropWhile p) : c ∈ s :=
  (List.dropWhile_suffix p).subset h

theorem atNul_of_nulFree (s : List Char) (h : NUL ∉ s) : atNul s = decide (s = []) := by
  cases s with
  | nil => rfl
  | cons c cs =>
    have : c ≠ NUL := fun hc => h (by simp [hc])
    simp [atNul, this]

/-- On a line without NUL, `strtok` skips the leading delimiters, returns
the following run of non-delimiters and resumes after the delimiter that
ends it. -/
theorem strtok_nulFree (s : List Char) (h : NUL ∉ s) :
    strtok s BSH_TOK_DELIM =
      if s.dropWhile isDelim = [] then none
      else some ((s.dropWhile isDelim).takeWhile (fun c => !isDelim c),
                 ((s.dropWhile isDelim).dropWhile (fun c => !isDelim c)).drop 1) := by
  have h1 : s.dropWhile (fun c => c != NUL && BSH_TOK_DELIM.contains c) = s.dropWhile isDelim := by
    apply dropWhile_agree
    intro c hc
    have : c ≠ NUL := fun e => h (e ▸ hc)
    simp [isDelim, this]
  have hs1 : NUL ∉ s.dropWhile isDelim := fun hm => h (mem_of_mem_dropWhile _ _ _ hm)
  have h2 : (s.dropWhile isDelim).dropWhile (fun c => c != NUL && !BSH_TOK_DELIM.contains c)
      = (s.dropWhile isDelim).dropWhile (fun c => !isDelim c) := by
    apply dropWhile_agree
    intro c hc
    have : c ≠ NUL := fun e => hs1 (e ▸ hc)
    simp [isDelim, this]
  have h3 : (s.dropWhile isDelim).takeWhile (fun c => c != NUL && !BSH_TOK_DELIM.contains c)
      = (s.dropWhile isDelim).takeWhile (fun c => !isDelim c) := by
    apply takeWhile_agree
    intro c hc
    have : c ≠ NUL := fun e => hs1 (e ▸ hc)
    simp [isDelim, this]
  have hs2 : NUL ∉ (s.dropWhile isDelim).dropWhile (fun c => !isDelim c) :=
    fun hm => hs1 (mem_of_mem_dropWhile _ _ _ hm)
  rw [strtok_unfold, h1, h2, h3, atNul_of_nulFree _ hs1, atNul_of_nulFree _ hs2]
  by_cases he : s.dropWhile isDelim = []
  · simp [he]
  · simp only [he, decide_False, Bool.false_eq_true, if_false, decide_eq_true_eq]
    split
    · next h0 => rw [h0]; rfl
    · rfl

theorem nonDelimRuns_nil : nonDelimRuns [] = [] := by
  simp [nonDelimRuns, List.splitOnP_nil]

theorem nonDelimRuns_cons_delim (c : Char) (cs : List Char) (h : isDelim c = true) :
    nonDelimRuns (c :: cs) = nonDelimRuns cs := by
  simp [nonDelimRuns, List.splitOnP_cons, h]

theorem nonDelimRuns_dropWhile (s : List Char) :
    nonDelimRuns s = nonDelimRuns (s.dropWhile isDelim) := by
  induction s with
  | nil => rfl
  | cons c cs ih =>
    by_cases hc : isDelim c = true
    · rw [nonDelimRuns_cons_delim c cs hc, List.dropWhile_cons, if_pos hc, ih]
    · simp [List.dropWhile_cons, hc]

theorem nonDelimRuns_cons_nondelim (c : Char) (cs : List Char) (h : isDelim c = false) :
    nonDelimRuns (c :: cs) =
      (c :: cs).takeWhile (fun c => !isDelim c)
        :: nonDelimRuns (((c :: cs).dropWhile (fun c => !isDelim c)).drop 1) := by
  have hsplit := List.takeWhile_append_dropWhile (fun c => !isDelim c) (c :: cs)
  have hnd : ∀ x ∈ (c :: cs).takeWhile (fun c => !isDelim c), ¬ (isDelim x = true) := by
    intro x hx
    have := List.mem_takeWhile_imp hx
    simpa using this
  have hne : (c :: cs).takeWhile (fun c => !isDelim c) ≠ [] := by
    simp [List.takeWhile_cons, h]
  generalize ht : (c :: cs).takeWhile (fun c => !isDelim c) = t at hsplit hnd hne
  generalize he : (c :: cs).dropWhile (fun c => !isDelim c) = e at hsplit
  cases e with
  | nil =>
    have hs : c :: cs = t := by simpa using hsplit.symm
    rw [hs]
    simp only [List.drop_nil, nonDelimRuns_nil]
    rw [nonDelimRuns, List.splitOnP_eq_single isDelim t hnd]
    cases t with
    | nil => exact absurd rfl hne
    | cons a as => simp
  | cons d r =>
    have hd : isDelim d = true := by
      have := head_dropWhile_false _ _ d r he
      simpa using this
    rw [← hsplit]
    simp only [List.drop_succ_cons, List.drop_zero]
    rw [nonDelimRuns, List.splitOnP_first isDelim t hnd d hd r, nonDelimRuns]
    cases t with
    | nil => exact absurd rfl hne
    | cons a as => simp

/-- The recursion equation shared by `strtok` and the specification. -/
theorem nonDelimRuns_step (s : List Char) :
    nonDelimRuns s =
      if s.dropWhile isDelim = [] then []
      else (s.dropWhile isDelim).takeWhile (fun c => !isDelim c)
        :: nonDelimRuns (((s.dropWhile isDelim).dropWhile (fun c => !isDelim c)).drop 1) := by
  rw [nonDelimRuns_dropWhile s]
  cases hs1 : s.dropWhile isDelim with
  | nil => simp [nonDelimRuns_nil]
  | cons c cs =>
    have hc := head_dropWhile_false _ _ c cs hs1
    rw [nonDelimRuns_cons_nondelim c cs hc]
    simp

theorem toks_eq_nonDelimRuns (fuel : Nat) (s : List Char) (h : NUL ∉ s)
    (hf : s.length + 1 ≤ fuel) :
    toks fuel (strtok s BSH_TOK_DELIM) = nonDelimRuns s := by
  induction fuel generalizing s with
  | zero => omega
  | succ fuel ih =>
    rw [nonDelimRuns_step, strtok_nulFree s h]
    by_cases he : s.dropWhile isDelim = []
    · simp [he, toks]
    · simp only [he, if_false, toks, List.cons.injEq, true_and]
      apply ih
      · intro hm
        exact h (mem_of_mem_dropWhile _ _ _ (mem_of_mem_dropWhile _ _ _ (List.mem_of_mem_drop hm)))
      · have hn := strtok_need s
        rw [strtok_nulFree s h] at hn
        simp only [he, if_false, need] at hn
        omega

theorem bufAt_store_null (ds : List CStr) :
    (bufAt ds).store Cell.null = .ok (finalBuf ds) := by
  have hlt := capAt_gt ds.length
  obtain ⟨m, hm⟩ : ∃ m, capAt ds.length - ds.length = m + 1 :=
    ⟨capAt ds.length - ds.length - 1, by omega⟩
  have hset := set_append_replicate (ds.map Cell.tok) m Cell.null
  simp only [List.length_map] at hset
  unfold TokBuf.store
  simp only [bufAt, List.length_append, List.length_map, List.length_replicate]
  rw [if_pos (by omega)]
  simp only [hm, hset, finalBuf, List.range_succ, List.map_append, List.map_cons, List.map_nil,
    Nat.add_sub_cancel]

theorem argv_append_null (ds : List CStr) (r : List Cell) :
    argv (ds.map Cell.tok ++ Cell.null :: r) = ds := by
  induction ds with
  | nil => simp [argv]
  | cons d ds ih => simpa [argv] using ih

theorem argv_finalBuf (ds : List CStr) : argv (finalBuf ds).tokens = ds := by
  simp only [finalBuf, argv_append_null]

/-- What `bsh_split_line` does, for every line, every outcome of the
allocations and every state. -/
theorem bsh_split_line_eq (env : Env) (line : List Char) (w : World) :
    bsh_split_line env line w = splitOutcome env (line_tokens line) w := by
  have h0 : TokBuf.mk (List.replicate (alloc_bytes BSH_TOK_BUFSIZE / SIZEOF_PTR) Cell.uninit)
      BSH_TOK_BUFSIZE 0 [] = bufAt [] := by
    simp [bufAt, capAt, BSH_TOK_BUFSIZE, alloc_bytes, SIZEOF_PTR, SIZE_MAX]
  unfold bsh_split_line splitOutcome splitStop malloc
  cases hal : env.alloc_ok (alloc_bytes BSH_TOK_BUFSIZE)
  · simp [hal, alloc_error]
  · simp only [hal, if_true, h0]
    rw [split_loop_eq_pushAll _ _ _ _ _ (strtok_need line) strtok_need, pushAll_bufAt]
    simp only [List.length_nil, List.nil_append]
    change (match (match pushAllStop env 0 (line_tokens line).length w with
        | none => SplitResult.ok (bufAt (line_tokens line))
        | some r => SplitResult.stop r.1 r.2) with
      | SplitResult.stop s w1 => SplitResult.stop s w1
      | SplitResult.ok b =>
        match b.store Cell.null with
        | Except.error f => SplitResult.stop (Stop.fault f) w
        | Except.ok b1 => SplitResult.ok b1) = _
    cases pushAllStop env 0 (line_tokens line).length w with
    | some r => rfl
    | none => simp only [bufAt_store_null]

theorem line_tokens_nulFree (line : List Char) (h : NUL ∉ line) :
    line_tokens line = nonDelimRuns line :=
  toks_eq_nonDelimRuns _ _ h (le_refl _)

theorem pushStep_none_iff (env : Env) (k : Nat) (w : World) :
    pushStep env k w = none ↔
      k + 1 ≤ INT_MAX ∧ (capAt k ≤ k + 1 →
        capAt k + BSH_TOK_BUFSIZE ≤ INT_MAX ∧
        env.alloc_ok (alloc_bytes (capAt k + BSH_TOK_BUFSIZE)) = true) := by
  unfold pushStep
  by_cases h1 : INT_MAX < k + 1
  · rw [if_pos h1]
    simp only [reduceCtorEq, false_iff, not_and]
    intro h
    omega
  · rw [if_neg h1]
    by_cases h2 : capAt k ≤ k + 1
    · rw [if_pos h2]
      by_cases h3 : INT_MAX < capAt k + BSH_TOK_BUFSIZE
      · rw [if_pos h3]
        simp only [reduceCtorEq, false_iff, not_and]
        intro _ h
        have := (h h2).1
        omega
      · rw [if_neg h3]
        cases hal : env.alloc_ok (alloc_bytes (capAt k + BSH_TOK_BUFSIZE))
        · simp only [Bool.false_eq_true, if_false, reduceCtorEq, false_iff, not_and]
          intro _ h
          have := (h h2).2
          simp at this
        · simp only [if_true, true_iff]
          exact ⟨by omega, fun _ => ⟨by omega, trivial⟩⟩
    · rw [if_neg h2]
      simp only [true_iff]
      exact ⟨by omega, fun h => absurd h h2⟩

theorem pushAllStop_none_iff (env : Env) (k n : Nat) (w : World) :
    pushAllStop env k n w = none ↔ ∀ i, i < n → pushStep env (k + i) w = none := by
  induction n generalizing k with
  | zero => simp [pushAllStop]
  | succ n ih =>
    simp only [pushAllStop]
    cases hp : pushStep env k w with
    | some r =>
      simp only [reduceCtorEq, false_iff]
      intro h
      have := h 0 (by omega)
      simp [hp] at this
    | none =>
      simp only
      rw [ih]
      constructor
      · intro h i hi
        cases i with
        | zero => simpa using hp
        | succ j =>
          have := h j (by omega)
          rwa [show k + 1 + j = k + (j + 1) by omega] at this
      · intro h i hi
        have := h (i + 1) (by omega)
        rwa [show k + (i + 1) = k + 1 + i by omega] at this

theorem pushAllStop_add (env : Env) (k a b : Nat) (w : World) :
    pushAllStop env k (a + b) w =
      match pushAllStop env k a w with
      | some r => some r
      | none => pushAllStop env (k + a) b w := by
  induction a generalizing k with
  | zero => simp [pushAllStop]
  | succ a ih =>
    rw [show a + 1 + b = (a + b) + 1 by omega]
    simp only [pushAllStop]
    cases hp : pushStep env k w with
    | some r => rfl
    | none =>
      simp only
      rw [ih, show k + 1 + a = k + (a + 1) by omega]

theorem allocOk_iff (env : Env) (n : Nat) :
    allocOk env n = true ↔
      ∀ j, j ≤ n / 64 → env.alloc_ok (alloc_bytes (64 * (j + 1))) = true := by
  simp only [allocOk, List.all_eq_true, List.mem_range, BSH_TOK_BUFSIZE]
  constructor
  · intro h j hj
    exact h j (by omega)
  · intro h j hj
    exact h j (by omega)

/-- `bsh_split_line` keeps control on a line of `n` tokens exactly when
its allocations succeed and `n` is below the number of tokens at which
`bufsize` overflows. -/
theorem splitStop_none_iff (env : Env) (n : Nat) (w : World) :
    splitStop env n w = none ↔ allocOk env n = true ∧ n < TOKENS_OVERFLOW := by
  rw [allocOk_iff]
  unfold splitStop
  cases hal : env.alloc_ok (alloc_bytes BSH_TOK_BUFSIZE)
  · simp only [Bool.false_eq_true, if_false, reduceCtorEq, false_iff, not_and]
    intro h
    have := h 0 (by omega)
    simp only [BSH_TOK_BUFSIZE] at hal
    simp [hal] at this
  · simp only [if_true]
    rw [pushAllStop_none_iff]
    simp only [pushStep_none_iff, Nat.zero_add]
    constructor
    · intro h
      have hn : n < TOKENS_OVERFLOW := by
        by_contra hge
        have := (h 2147483583 (by unfold TOKENS_OVERFLOW INT_MAX at hge; omega)).2
          (by unfold capAt BSH_TOK_BUFSIZE; omega)
        unfold capAt BSH_TOK_BUFSIZE INT_MAX at this
        omega
      refine ⟨?_, hn⟩
      intro j hj
      cases j with
      | zero => simpa [BSH_TOK_BUFSIZE] using hal
      | succ i =>
        have hlt : 64 * (i + 1) - 1 < n := by omega
        have hfull : capAt (64 * (i + 1) - 1) ≤ 64 * (i + 1) - 1 + 1 := by
          unfold capAt BSH_TOK_BUFSIZE; omega
        have hal2 := ((h _ hlt).2 hfull).2
        have heq : capAt (64 * (i + 1) - 1) + BSH_TOK_BUFSIZE = 64 * (i + 1 + 1) := by
          unfold capAt BSH_TOK_BUFSIZE; omega
        rwa [heq] at hal2
    · rintro ⟨hall, hn⟩ i hi
      unfold TOKENS_OVERFLOW INT_MAX at hn
      refine ⟨by unfold INT_MAX; omega, fun hfull => ⟨?_, ?_⟩⟩
      · unfold capAt BSH_TOK_BUFSIZE at hfull
        unfold capAt BSH_TOK_BUFSIZE INT_MAX
        omega
      · have heq : capAt i + BSH_TOK_BUFSIZE = 64 * ((i + 1) / 64 + 1) := by
          unfold capAt BSH_TOK_BUFSIZE at hfull
          unfold capAt BSH_TOK_BUFSIZE
          omega
        rw [heq]
        exact hall _ (Nat.div_le_div_right (by omega))

/-- From `TOKENS_OVERFLOW` tokens on, when the allocations asked for until
then succeed, `bsh_split_line` ends in the signed overflow of `bufsize`. -/
theorem splitStop_overflow (env : Env) (n : Nat) (w : World)
    (hal : allocOk env (TOKENS_OVERFLOW - 1) = true) (hn : TOKENS_OVERFLOW ≤ n) :
    splitStop env n w = some (.fault .signedOverflow, w) := by
  have hnone := (splitStop_none_iff env (TOKENS_OVERFLOW - 1) w).2
    ⟨hal, by unfold TOKENS_OVERFLOW INT_MAX; omega⟩
  have h0 : env.alloc_ok (alloc_bytes BSH_TOK_BUFSIZE) = true := by
    have := (allocOk_iff env _).1 hal 0 (by omega)
    simpa [BSH_TOK_BUFSIZE] using this
  unfold splitStop at hnone ⊢
  rw [if_pos h0] at hnone ⊢
  obtain ⟨m, rfl⟩ : ∃ m, n = (TOKENS_OVERFLOW - 1) + (m + 1) :=
    ⟨n - TOKENS_OVERFLOW, by unfold TOKENS_OVERFLOW INT_MAX at hn ⊢; omega⟩
  rw [pushAllStop_add, hnone]
  simp only [Nat.zero_add, pushAllStop]
  have hstep : pushStep env (TOKENS_OVERFLOW - 1) w = some (.fault .signedOverflow, w) := by
    unfold pushStep
    rw [if_neg (by unfold TOKENS_OVERFLOW INT_MAX; omega),
      if_pos (by unfold capAt TOKENS_OVERFLOW INT_MAX BSH_TOK_BUFSIZE; omega),
      if_pos (by unfold capAt TOKENS_OVERFLOW INT_MAX BSH_TOK_BUFSIZE; omega)]
  rw [hstep]

theorem bsh_split_line_ok (env : Env) (line : List Char) (w : World)
    (h : allocOk env (line_tokens line).length = true)
    (hn : (line_tokens line).length < TOKENS_OVERFLOW) :
    bsh_split_line env line w = .ok (finalBuf (line_tokens line)) := by
  rw [bsh_split_line_eq, splitOutcome, (splitStop_none_iff env _ w).2 ⟨h, hn⟩]

theorem bsh_split_line_ok_iff (env : Env) (line : List Char) (w : World) :
    (∃ b, bsh_split_line env line w = .ok b) ↔
      allocOk env (line_tokens line).length = true ∧
      (line_tokens line).length < TOKENS_OVERFLOW := by
  rw [← splitStop_none_iff env _ w, bsh_split_line_eq, splitOutcome]
  cases splitStop env (line_tokens line).length w with
  | none => simp
  | some r => simp

theorem bsh_split_line_ok_eq (env : Env) (line : List Char) (w : World) (b : TokBuf)
    (h : bsh_split_line env line w = .ok b) : b = finalBuf (line_tokens line) := by
  rw [bsh_split_line_eq, splitOutcome] at h
  cases hs : splitStop env (line_tokens line).length w with
  | none =>
    rw [hs] at h
    simp only [SplitResult.ok.injEq] at h
    exact h.symm
  | some r =>
    rw [hs] at h
    cases h

theorem splitOnP_no_delim (s : List Char) :
    ∀ t ∈ s.splitOnP isDelim, ∀ c ∈ t, isDelim c = false := by
  induction s with
  | nil => simp
  | cons x xs ih =>
    intro t ht c hc
    rw [List.splitOnP_cons] at ht
    by_cases hx : isDelim x = true
    · simp only [hx, if_true, List.mem_cons] at ht
      rcases ht with rfl | ht
      · simp at hc
      · exact ih t ht c hc
    · simp only [hx, Bool.false_eq_true, if_false] at ht
      cases hsp : xs.splitOnP isDelim with
      | nil => exact absurd hsp (List.splitOnP_ne_nil _ _)
      | cons h tl =>
        rw [hsp] at ht ih
        simp only [List.modifyHead_cons, List.mem_cons] at ht
        rcases ht with rfl | ht
        · simp only [List.mem_cons] at hc
          rcases hc with rfl | hc
          · simpa using hx
          · exact ih h (by simp) c hc
        · exact ih t (by simp [ht]) c hc

theorem nonDelimRuns_token (line : List Char) :
    ∀ t ∈ nonDelimRuns line, t ≠ [] ∧ ∀ c ∈ t, c ∉ BSH_TOK_DELIM := by
  intro t ht
  simp only [nonDelimRuns, List.mem_filter, Bool.not_eq_true', List.isEmpty_eq_false] at ht
  refine ⟨ht.2, ?_⟩
  intro c hc
  have := splitOnP_no_delim line t ht.1 c hc
  simpa [isDelim] using this

theorem nonDelimRuns_eq_nil_iff (line : List Char) :
    nonDelimRuns line = [] ↔ ∀ c ∈ line, c ∈ BSH_TOK_DELIM := by
  rw [nonDelimRuns_step]
  by_cases he : line.dropWhile isDelim = []
  · simp only [he, if_true, true_iff]
    rw [List.dropWhile_eq_nil_iff] at he
    intro c hc
    simpa [isDelim] using he c hc
  · rw [if_neg he]
    constructor
    · intro h
      exact absurd h (List.cons_ne_nil _ _)
    · intro hall
      exfalso
      apply he
      rw [List.dropWhile_eq_nil_iff]
      intro c hc
      simpa [isDelim] using hall c hc

theorem nul_not_delim : NUL ∉ BSH_TOK_DELIM := by decide

theorem nonDelimRuns_replicate (n : Nat) :
    nonDelimRuns ((List.replicate n (str "a ")).flatten) = List.replicate n (str "a") := by
  induction n with
  | zero => simp [nonDelimRuns_nil]
  | succ n ih =>
    have h1 : isDelim (Char.ofNat 97) = false := by decide
    have h2 : isDelim (Char.ofNat 32) = true := by decide
    have hs : str "a " = [Char.ofNat 97, Char.ofNat 32] := by decide
    have ht : str "a" = [Char.ofNat 97] := by decide
    rw [List.replicate_succ, List.flatten_cons, hs, List.replicate_succ, ht]
    simp only [List.cons_append, List.nil_append]
    rw [nonDelimRuns_cons_nondelim _ _ h1]
    simp only [List.takeWhile_cons, List.dropWhile_cons, h1, h2, Bool.not_false, Bool.not_true,
      if_true, Bool.false_eq_true, if_false, List.drop_succ_cons, List.drop_zero]
    rw [hs, ht] at ih
    rw [ih]

theorem nul_not_mem_replicate (n : Nat) : NUL ∉ (List.replicate n (str "a ")).flatten := by
  intro h
  simp only [List.mem_flatten, List.mem_replicate] at h
  obtain ⟨l, ⟨_, rfl⟩, hl⟩ := h
  revert hl
  decide

/-! ## Lemmas on the dispatcher, `echo` and the wait loop -/


theorem execute_scan_first (launch : List CStr → World → Outcome) (arg0 : CStr)
    (args : List CStr) (w : World) (pre : List Builtin) (b : Builtin) (post : List Builtin)
    (hb : b.name = arg0) (hpre : ∀ b' ∈ pre, b'.name ≠ arg0) :
    execute_scan launch arg0 args w (pre ++ b :: post) = b.func args w := by
  induction pre with
  | nil => simp [execute_scan, hb]
  | cons p ps ih =>
    have hp : ¬ arg0 = p.name := fun e => hpre p (by simp) e.symm
    simp only [List.cons_append, execute_scan, hp, if_false]
    exact ih (fun b' hb' => hpre b' (by simp [hb']))

theorem execute_scan_none (launch : List CStr → World → Outcome) (arg0 : CStr)
    (args : List CStr) (w : World) (table : List Builtin)
    (h : ∀ b ∈ table, b.name ≠ arg0) :
    execute_scan launch arg0 args w table = launch args w := by
  induction table with
  | nil => rfl
  | cons p ps ih =>
    have hp : ¬ arg0 = p.name := fun e => h p (by simp) e.symm
    simp only [execute_scan, hp, if_false]
    exact ih (fun b' hb' => h b' (by simp [hb']))

theorem print_print (w : World) (a b : List Char) : (w.print a).print b = w.print (a ++ b) := by
  simp [World.print]

theorem print_nil (w : World) : w.print [] = w := by
  simp [World.print]

theorem echo_loop_eq (rest : List CStr) (w : World) :
    echo_loop rest w = w.print (List.intercalate (str " ") rest) := by
  induction rest generalizing w with
  | nil => simp [echo_loop, List.intercalate, print_nil]
  | cons a rest ih =>
    cases rest with
    | nil => simp [echo_loop, List.intercalate]
    | cons b r =>
      rw [echo_loop]
      simp only [if_pos (List.cons_ne_nil b r)]
      rw [ih, print_print, print_print]
      simp [List.intercalate, List.intersperse_cons_cons]

theorem intercalate_head (sep : List Char) (a : CStr) (rest : List CStr) (h : a ≠ []) :
    (List.intercalate sep (a :: rest)).head? = a.head? := by
  cases a with
  | nil => exact absurd rfl h
  | cons c cs =>
    cases rest with
    | nil => simp [List.intercalate]
    | cons b r => simp [List.intercalate, List.intersperse_cons_cons]

theorem intercalate_getLast (sep : List Char) (rest : List CStr)
    (h : ∀ a ∈ rest, a ≠ []) (hne : rest ≠ []) :
    ∃ a ∈ rest, (List.intercalate sep rest).getLast? = a.getLast? := by
  induction rest with
  | nil => exact absurd rfl hne
  | cons a rest ih =>
    cases rest with
    | nil => exact ⟨a, by simp, by simp [List.intercalate]⟩
    | cons b r =>
      obtain ⟨x, hx, hlast⟩ := ih (fun y hy => h y (by simp [hy])) (by simp)
      refine ⟨x, by simp [hx], ?_⟩
      have hxne : x ≠ [] := h x (by simp [hx])
      have hne2 : List.intercalate sep (b :: r) ≠ [] := by
        intro he
        rw [he] at hlast
        have hnone : x.getLast? = none := hlast.symm
        rw [List.getLast?_eq_none_iff] at hnone
        exact hxne hnone
      have hsplit : List.intercalate sep (a :: b :: r)
          = (a ++ sep) ++ List.intercalate sep (b :: r) := by
        simp [List.intercalate, List.intersperse_cons_cons]
      rw [hsplit, List.getLast?_append_of_ne_nil _ hne2, hlast]

theorem wait_loop_skip (pre : List WaitStatus) (rest : List WaitStatus) (w : World)
    (hpre : ∀ s ∈ pre, WIFEXITED s = false ∧ WIFSIGNALED s = false) :
    wait_loop (pre ++ rest) w = wait_loop rest { w with waits := w.waits ++ pre } := by
  induction pre generalizing w with
  | nil => simp
  | cons s ss ih =>
    have hs := hpre s (by simp)
    simp only [List.cons_append, wait_loop, hs.1, hs.2, Bool.not_false, Bool.and_self, if_true,
      List.append_eq]
    rw [ih _ (fun x hx => hpre x (by simp [hx]))]
    simp

/-! ## Lemmas on `mkdir` -/

theorem bsh_cd_ret (env : Env) (args : List CStr) (w w' : World) (s : Int)
    (h : bsh_cd env args w = .ret s w') : s = 1 := by
  unfold bsh_cd at h
  repeat' split at h
  all_goals first
    | (cases h; rfl)
    | cases h

theorem bsh_pwd_ret (env : Env) (args : List CStr) (w w' : World) (s : Int)
    (h : bsh_pwd env args w = .ret s w') : s = 1 := by
  unfold bsh_pwd at h
  split at h <;> (cases h; rfl)

theorem bsh_ls_ret (env : Env) (args : List CStr) (w w' : World) (s : Int)
    (h : bsh_ls env args w = .ret s w') : s = 1 := by
  unfold bsh_ls at h
  repeat' split at h
  all_goals first
    | (cases h; rfl)
    | cases h

theorem bsh_touch_ret (env : Env) (args : List CStr) (w w' : World) (s : Int)
    (h : bsh_touch env args w = .ret s w') : s = 1 := by
  unfold bsh_touch at h
  repeat' split at h
  all_goals first
    | (cases h; rfl)
    | cases h

theorem bsh_mkdir_ret (env : Env) (args : List CStr) (w w' : World) (s : Int)
    (h : bsh_mkdir env args w = .ret s w') : s = 1 := by
  unfold bsh_mkdir at h
  repeat' split at h
  all_goals first
    | (cases h; rfl)
    | cases h

theorem bsh_echo_ret (args : List CStr) (w w' : World) (s : Int)
    (h : bsh_echo args w = .ret s w') : s = 1 := by
  unfold bsh_echo at h
  repeat' split at h
  all_goals first
    | (cases h; rfl)
    | cases h

theorem bsh_cat_ret (env : Env) (args : List CStr) (w w' : World) (s : Int)
    (h : bsh_cat env args w = .ret s w') : s = 1 := by
  simp only [bsh_cat] at h
  split at h
  · cases h
  · cases h; rfl
  · split at h
    · cases h; rfl
    · split at h
      · cases h
      · cases h; rfl

theorem bsh_whoami_ret (env : Env) (args : List CStr) (w w' : World) (s : Int)
    (h : bsh_whoami env args w = .ret s w') : s = 1 := by
  unfold bsh_whoami at h
  repeat' split at h
  all_goals first
    | (cases h; rfl)
    | cases h

theorem bsh_host_ret (env : Env) (args : List CStr) (w w' : World) (s : Int)
    (h : bsh_host env args w = .ret s w') : s = 1 := by
  unfold bsh_host at h
  cases h; rfl

theorem bsh_help_ret (args : List CStr) (w w' : World) (s : Int)
    (h : bsh_help args w = .ret s w') : s = 1 := by
  unfold bsh_help at h
  cases h; rfl

theorem bsh_launch_ret (env : Env) (args : List CStr) (w w' : World) (s : Int)
    (h : bsh_launch env args w = .ret s w') : s = 1 := by
  unfold bsh_launch at h
  repeat' split at h
  all_goals first
    | (cases h; rfl)
    | cases h

theorem execute_scan_cases (launch : List CStr → World → Outcome) (arg0 : CStr)
    (args : List CStr) (w : World) (table : List Builtin) (P : Outcome → Prop)
    (hl : (∀ b ∈ table, b.name ≠ arg0) → P (launch args w))
    (ht : ∀ b ∈ table, arg0 = b.name → P (b.func args w)) :
    P (execute_scan launch arg0 args w table) := by
  induction table with
  | nil => exact hl (by simp)
  | cons b bs ih =>
    simp only [execute_scan]
    by_cases hb : arg0 = b.name
    · rw [if_pos hb]
      exact ht b (by simp) hb
    · rw [if_neg hb]
      apply ih
      · intro hno
        apply hl
        intro b' hb'
        rcases List.mem_cons.1 hb' with rfl | hb'
        · exact fun e => hb e.symm
        · exact hno b' hb'
      · exact fun b' hb' => ht b' (by simp [hb'])

/-- Whenever the dispatcher returns, it returns 0 and the first string of
the vector is `exit`, or it returns 1 and the first string is not `exit`. -/
theorem execute_ret (env : Env) (args : List CStr) (w w' : World) (s : Int)
    (h : execute env args w = .ret s w') :
    (s = 0 ∧ args.head? = some (str "exit")) ∨ (s = 1 ∧ args.head? ≠ some (str "exit")) := by
  cases args with
  | nil =>
    right
    simp only [execute, bsh_execute] at h
    cases h
    exact ⟨rfl, by simp⟩
  | cons a0 rest =>
    simp only [List.head?_cons, Option.some.injEq, ne_eq]
    revert h s w'
    simp only [execute, bsh_execute]
    apply execute_scan_cases (bsh_launch env) a0 (a0 :: rest) w (builtins env)
      (fun o => ∀ (w' : World) (s : Int), o = .ret s w' →
        (s = 0 ∧ a0 = str "exit") ∨ (s = 1 ∧ ¬ a0 = str "exit"))
    · intro hno w' s h
      refine Or.inr ⟨bsh_launch_ret _ _ _ _ _ h, fun e => ?_⟩
      exact hno ⟨str "exit", bsh_exit⟩ (by simp [builtins]) e.symm
    · intro b hb ha w' s h
      simp only [builtins, List.mem_cons, List.mem_singleton, List.not_mem_nil, or_false] at hb
      rcases hb with rfl | rfl | rfl | rfl | rfl | rfl | rfl | rfl | rfl | rfl | rfl
      all_goals dsimp only at ha h
      · exact Or.inr ⟨bsh_cd_ret _ _ _ _ _ h, by rw [ha]; decide⟩
      · exact Or.inr ⟨bsh_pwd_ret _ _ _ _ _ h, by rw [ha]; decide⟩
      · exact Or.inr ⟨bsh_ls_ret _ _ _ _ _ h, by rw [ha]; decide⟩
      · exact Or.inr ⟨bsh_touch_ret _ _ _ _ _ h, by rw [ha]; decide⟩
      · exact Or.inr ⟨bsh_mkdir_ret _ _ _ _ _ h, by rw [ha]; decide⟩
      · exact Or.inr ⟨bsh_echo_ret _ _ _ _ h, by rw [ha]; decide⟩
      · exact Or.inr ⟨bsh_cat_ret _ _ _ _ _ h, by rw [ha]; decide⟩
      · exact Or.inr ⟨bsh_whoami_ret _ _ _ _ _ h, by rw [ha]; decide⟩
      · exact Or.inr ⟨bsh_host_ret _ _ _ _ _ h, by rw [ha]; decide⟩
      · exact Or.inr ⟨bsh_help_ret _ _ _ _ h, by rw [ha]; decide⟩
      · left
        simp only [bsh_exit] at h
        cases h
        exact ⟨rfl, ha⟩

/-- On a vector whose first string is `exit` the dispatcher returns 0 and
leaves the state as it was. -/
theorem execute_exit (env : Env) (args : List CStr) (w : World)
    (h : args.head? = some (str "exit")) : execute env args w = .ret 0 w := by
  cases args with
  | nil => simp at h
  | cons a0 rest =>
    simp only [List.head?_cons, Option.some.injEq] at h
    subst h
    rfl

/-! ## Whether a handler returns does not depend on the state -/

theorem cat_loop_ok_of_ok (bufferSize fuel : Nat) (content : List Char) (w w' : World)
    (h : ∃ w1, cat_loop bufferSize fuel content w = .ok w1) :
    ∃ w1, cat_loop bufferSize fuel content w' = .ok w1 := by
  induction fuel generalizing content w w' with
  | zero =>
    obtain ⟨w1, h1⟩ := h
    simp [cat_loop] at h1
  | succ fuel ih =>
    obtain ⟨w1, h1⟩ := h
    simp only [cat_loop] at h1 ⊢
    cases hf : fgets bufferSize content with
    | none => exact ⟨w', rfl⟩
    | some cr =>
      obtain ⟨chunk, rest⟩ := cr
      rw [hf] at h1
      simp only at h1 ⊢
      by_cases hl : strlen chunk = 0
      · simp [hl] at h1
      · simp only [hl, if_false] at h1 ⊢
        exact ih _ _ _ ⟨w1, h1⟩

theorem bsh_cd_isRet (env : Env) (args : List CStr) (w w' : World) :
    (bsh_cd env args w).isRet = (bsh_cd env args w').isRet := by
  unfold bsh_cd
  repeat' split
  all_goals rfl

theorem bsh_pwd_isRet (env : Env) (args : List CStr) (w w' : World) :
    (bsh_pwd env args w).isRet = (bsh_pwd env args w').isRet := by
  unfold bsh_pwd
  repeat' split
  all_goals rfl

theorem bsh_ls_isRet (env : Env) (args : List CStr) (w w' : World) :
    (bsh_ls env args w).isRet = (bsh_ls env args w').isRet := by
  unfold bsh_ls
  repeat' split
  all_goals rfl

theorem bsh_touch_isRet (env : Env) (args : List CStr) (w w' : World) :
    (bsh_touch env args w).isRet = (bsh_touch env args w').isRet := by
  unfold bsh_touch
  repeat' split
  all_goals rfl

theorem bsh_mkdir_isRet (env : Env) (args : List CStr) (w w' : World) :
    (bsh_mkdir env args w).isRet = (bsh_mkdir env args w').isRet := by
  unfold bsh_mkdir
  repeat' split
  all_goals rfl

theorem bsh_echo_isRet (args : List CStr) (w w' : World) :
    (bsh_echo args w).isRet = (bsh_echo args w').isRet := by
  unfold bsh_echo
  repeat' split
  all_goals rfl

theorem bsh_cat_isRet (env : Env) (args : List CStr) (w w' : World) :
    (bsh_cat env args w).isRet = (bsh_cat env args w').isRet := by
  simp only [bsh_cat]
  cases arg1 args with
  | error f => rfl
  | ok a =>
    cases a with
    | none => rfl
    | some p =>
      dsimp only
      cases env.fopen_r p with
      | none => rfl
      | some content =>
        dsimp only
        cases h1 : cat_loop 4096 (content.length + 1) content w with
        | ok w1 =>
          obtain ⟨w2, h2⟩ := cat_loop_ok_of_ok 4096 _ content w w' ⟨w1, h1⟩
          rw [h2]
          rfl
        | error f =>
          cases h2 : cat_loop 4096 (content.length + 1) content w' with
          | error f' => rfl
          | ok w2 =>
            obtain ⟨w3, h3⟩ := cat_loop_ok_of_ok 4096 _ content w' w ⟨w2, h2⟩
            rw [h3] at h1
            cases h1

theorem bsh_whoami_isRet (env : Env) (args : List CStr) (w w' : World) :
    (bsh_whoami env args w).isRet = (bsh_whoami env args w').isRet := by
  unfold bsh_whoami
  repeat' split
  all_goals rfl

theorem wait_loop_ends_indep (statuses : List WaitStatus) (w w' : World) :
    (wait_loop statuses w).1 = (wait_loop statuses w').1 := by
  induction statuses generalizing w w' with
  | nil => rfl
  | cons s ss ih =>
    simp only [wait_loop]
    split
    · exact ih _ _
    · rfl

theorem bsh_launch_isRet (env : Env) (args : List CStr) (w w' : World) :
    (bsh_launch env args w).isRet = (bsh_launch env args w').isRet := by
  unfold bsh_launch
  cases env.fork with
  | child => cases env.execvp_ok args <;> rfl
  | failed => rfl
  | parent pid =>
    simp only
    have h := wait_loop_ends_indep env.waitpid w w'
    rcases h1 : wait_loop env.waitpid w with ⟨e1, w1⟩
    rcases h2 : wait_loop env.waitpid w' with ⟨e2, w2⟩
    rw [h1, h2] at h
    simp only at h
    subst h
    cases e1 <;> rfl

theorem execute_scan_isRet (launch : List CStr → World → Outcome) (arg0 : CStr)
    (args : List CStr) (w w' : World) (table : List Builtin)
    (hl : (launch args w).isRet = (launch args w').isRet)
    (hb : ∀ b ∈ table, (b.func args w).isRet = (b.func args w').isRet) :
    (execute_scan launch arg0 args w table).isRet
      = (execute_scan launch arg0 args w' table).isRet := by
  induction table with
  | nil => exact hl
  | cons b rest ih =>
    simp only [execute_scan]
    by_cases h : arg0 = b.name
    · rw [if_pos h, if_pos h]
      exact hb b (List.mem_cons_self _ _)
    · rw [if_neg h, if_neg h]
      exact ih (fun c hc => hb c (List.mem_cons_of_mem _ hc))

theorem execute_isRet (env : Env) (args : List CStr) (w w' : World) :
    (execute env args w).isRet = (execute env args w').isRet := by
  cases args with
  | nil => rfl
  | cons a0 rest =>
    simp only [execute, bsh_execute]
    apply execute_scan_isRet
    · exact bsh_launch_isRet env (a0 :: rest) w w'
    · intro b hb
      simp only [builtins, List.mem_cons, List.mem_singleton, List.not_mem_nil, or_false] at hb
      rcases hb with rfl | rfl | rfl | rfl | rfl | rfl | rfl | rfl | rfl | rfl | rfl
      · exact bsh_cd_isRet env (a0 :: rest) w w'
      · exact bsh_pwd_isRet env (a0 :: rest) w w'
      · exact bsh_ls_isRet env (a0 :: rest) w w'
      · exact bsh_touch_isRet env (a0 :: rest) w w'
      · exact bsh_mkdir_isRet env (a0 :: rest) w w'
      · exact bsh_echo_isRet (a0 :: rest) w w'
      · exact bsh_cat_isRet env (a0 :: rest) w w'
      · exact bsh_whoami_isRet env (a0 :: rest) w w'
      · rfl
      · rfl
      · rfl

/-- A command that returns from one state returns from every state. -/
theorem execute_returns_indep (env : Env) (args : List CStr) (w w' : World)
    (h : ∃ s w1, execute env args w = .ret s w1) : ∃ s w1, execute env args w' = .ret s w1 := by
  obtain ⟨s, w1, h1⟩ := h
  have hi := execute_isRet env args w w'
  rw [h1] at hi
  cases h2 : execute env args w' with
  | ret s' w2 => exact ⟨s', w2, rfl⟩
  | stop st w2 =>
    rw [h2] at hi
    simp [Outcome.isRet] at hi


/-! ### No handler ends the process with the success code -/

theorem bsh_cd_stop (env : Env) (args : List CStr) (w w' : World) (s : Stop)
    (h : bsh_cd env args w = .stop s w') : s ≠ .exit EXIT_SUCCESS := by
  unfold bsh_cd at h
  repeat' split at h
  all_goals first
    | (cases h; done)
    | (cases h; intro e; cases e)

theorem bsh_pwd_stop (env : Env) (args : List CStr) (w w' : World) (s : Stop)
    (h : bsh_pwd env args w = .stop s w') : s ≠ .exit EXIT_SUCCESS := by
  unfold bsh_pwd at h
  repeat' split at h
  all_goals cases h

theorem bsh_ls_stop (env : Env) (args : List CStr) (w w' : World) (s : Stop)
    (h : bsh_ls env args w = .stop s w') : s ≠ .exit EXIT_SUCCESS := by
  unfold bsh_ls at h
  repeat' split at h
  all_goals first
    | (cases h; done)
    | (cases h; intro e; cases e)

theorem bsh_touch_stop (env : Env) (args : List CStr) (w w' : World) (s : Stop)
    (h : bsh_touch env args w = .stop s w') : s ≠ .exit EXIT_SUCCESS := by
  unfold bsh_touch at h
  repeat' split at h
  all_goals first
    | (cases h; done)
    | (cases h; intro e; cases e)

theorem bsh_mkdir_stop (env : Env) (args : List CStr) (w w' : World) (s : Stop)
    (h : bsh_mkdir env args w = .stop s w') : s ≠ .exit EXIT_SUCCESS := by
  unfold bsh_mkdir at h
  repeat' split at h
  all_goals first
    | (cases h; done)
    | (cases h; intro e; cases e)

theorem bsh_echo_stop (args : List CStr) (w w' : World) (s : Stop)
    (h : bsh_echo args w = .stop s w') : s ≠ .exit EXIT_SUCCESS := by
  unfold bsh_echo at h
  repeat' split at h
  all_goals first
    | (cases h; done)
    | (cases h; intro e; cases e)

theorem bsh_cat_stop (env : Env) (args : List CStr) (w w' : World) (s : Stop)
    (h : bsh_cat env args w = .stop s w') : s ≠ .exit EXIT_SUCCESS := by
  simp only [bsh_cat] at h
  repeat' split at h
  all_goals first
    | (cases h; done)
    | (cases h; intro e; cases e)

theorem bsh_whoami_stop (env : Env) (args : List CStr) (w w' : World) (s : Stop)
    (h : bsh_whoami env args w = .stop s w') : s ≠ .exit EXIT_SUCCESS := by
  unfold bsh_whoami at h
  repeat' split at h
  all_goals first
    | (cases h; done)
    | (cases h; intro e; cases e)

theorem bsh_launch_stop (env : Env) (args : List CStr) (w w' : World) (s : Stop)
    (h : bsh_launch env args w = .stop s w') : s ≠ .exit EXIT_SUCCESS := by
  unfold bsh_launch at h
  repeat' split at h
  all_goals first
    | (cases h; done)
    | (cases h; intro e; cases e)

/-- Whenever the dispatcher loses control, it is not through an exit with
the success code. -/
theorem execute_stop (env : Env) (args : List CStr) (w w' : World) (s : Stop)
    (h : execute env args w = .stop s w') : s ≠ .exit EXIT_SUCCESS := by
  cases args with
  | nil =>
    simp only [execute, bsh_execute] at h
    cases h
  | cons a0 rest =>
    revert h s w'
    simp only [execute, bsh_execute]
    apply execute_scan_cases (bsh_launch env) a0 (a0 :: rest) w (builtins env)
      (fun o => ∀ (w' : World) (s : Stop), o = .stop s w' → s ≠ .exit EXIT_SUCCESS)
    · intro _ w' s h
      exact bsh_launch_stop env (a0 :: rest) w w' s h
    · intro b hb _ w' s h
      simp only [builtins, List.mem_cons, List.mem_singleton, List.not_mem_nil, or_false] at hb
      rcases hb with rfl | rfl | rfl | rfl | rfl | rfl | rfl | rfl | rfl | rfl | rfl
      all_goals dsimp only at h
      · exact bsh_cd_stop env (a0 :: rest) w w' s h
      · exact bsh_pwd_stop env (a0 :: rest) w w' s h
      · exact bsh_ls_stop env (a0 :: rest) w w' s h
      · exact bsh_touch_stop env (a0 :: rest) w w' s h
      · exact bsh_mkdir_stop env (a0 :: rest) w w' s h
      · exact bsh_echo_stop (a0 :: rest) w w' s h
      · exact bsh_cat_stop env (a0 :: rest) w w' s h
      · exact bsh_whoami_stop env (a0 :: rest) w w' s h
      · cases h
      · cases h
      · cases h

/-! ## Lemmas on the loop -/

theorem bsh_loop_nil (env : Nat → Env) (n : Nat) (w : World) :
    bsh_loop env .eof [] n w
      = { dispatched := [], unread := [], world := w.print (str "> "),
          stop := some (.exit EXIT_SUCCESS) } := rfl

/-- One iteration of the loop, in terms of the tokens of the line. -/
theorem bsh_loop_cons (env : Nat → Env) (ending : ReadEnd) (l : List Char)
    (rest : List (List Char)) (n : Nat) (w : World) :
    bsh_loop env ending (l :: rest) n w =
      match splitStop (env n) (line_tokens l).length (w.print (str "> ")) with
      | some r => { dispatched := [], unread := rest, world := r.2, stop := some r.1 }
      | none =>
        match execute (env n) (line_tokens l) (w.print (str "> ")) with
        | .stop s w1 =>
          { dispatched := [line_tokens l], unread := rest, world := w1, stop := some s }
        | .ret status w1 =>
          if status ≠ 0 then
            { bsh_loop env ending rest (n + 1) w1 with
              dispatched := line_tokens l :: (bsh_loop env ending rest (n + 1) w1).dispatched }
          else { dispatched := [line_tokens l], unread := rest, world := w1, stop := none } := by
  simp only [bsh_loop, bsh_split_line_eq, splitOutcome]
  cases splitStop (env n) (line_tokens l).length (w.print (str "> ")) with
  | some r => rfl
  | none => simp only [argv_finalBuf]

theorem pushAllStop_stop (env : Env) (w : World) (k m : Nat) (r : Stop × World)
    (h : pushAllStop env k m w = some r) : r.1 ≠ .exit EXIT_SUCCESS := by
  induction m generalizing k with
  | zero => simp [pushAllStop] at h
  | succ m ih =>
    simp only [pushAllStop] at h
    cases hp : pushStep env k w with
    | none =>
      rw [hp] at h
      exact ih _ h
    | some q =>
      rw [hp] at h
      simp only [Option.some.injEq] at h
      subst h
      unfold pushStep at hp
      repeat' split at hp
      all_goals first
        | (cases hp; done)
        | (cases hp; intro e; cases e)

/-- When `bsh_split_line` loses control, it is not through an exit with the
success code. -/
theorem splitStop_stop (env : Env) (n : Nat) (w : World) (r : Stop × World)
    (h : splitStop env n w = some r) : r.1 ≠ .exit EXIT_SUCCESS := by
  unfold splitStop at h
  split at h
  · exact pushAllStop_stop env w 0 n r h
  · cases h
    simp [EXIT_FAILURE, EXIT_SUCCESS]

theorem isExitLine_eq (l : List Char) :
    isExitLine l = decide ((line_tokens l).head? = some (str "exit")) := by
  simp only [isExitLine]
  cases line_tokens l with
  | nil => simp
  | cons a r => simp

theorem linesBeforeExit_cons_exit (l : List Char) (rest : List (List Char))
    (h : isExitLine l = true) : linesBeforeExit (l :: rest) = 0 := by
  simp [linesBeforeExit, List.takeWhile_cons, h]

theorem linesBeforeExit_cons_other (l : List Char) (rest : List (List Char))
    (h : isExitLine l = false) : linesBeforeExit (l :: rest) = linesBeforeExit rest + 1 := by
  simp [linesBeforeExit, List.takeWhile_cons, h]

theorem linesBeforeExit_le (lines : List (List Char)) : linesBeforeExit lines ≤ lines.length :=
  (List.takeWhile_prefix _).length_le

/-- Whatever the allocations and the commands do: the vectors dispatched
are, in order, the tokens of an initial segment of the lines up to the first
`exit` line, and the lines after that line are among the lines never read. -/
theorem bsh_loop_initial_segment (env : Nat → Env) (lines : List (List Char)) (n : Nat)
    (w : World) :
    (bsh_loop env .eof lines n w).dispatched
        <+: (lines.take (linesBeforeExit lines + 1)).map line_tokens ∧
    lines.drop (linesBeforeExit lines + 1) <:+ (bsh_loop env .eof lines n w).unread := by
  induction lines generalizing n w with
  | nil => simp [bsh_loop_nil]
  | cons l rest ih =>
    rw [bsh_loop_cons env .eof l rest n w]
    cases splitStop (env n) (line_tokens l).length (w.print (str "> ")) with
    | some r =>
      simp only [List.drop_succ_cons]
      exact ⟨List.nil_prefix, List.drop_suffix _ _⟩
    | none =>
      simp only
      cases hex : execute (env n) (line_tokens l) (w.print (str "> ")) with
      | stop s w1 =>
        simp only [List.map_cons, List.take_succ_cons, List.drop_succ_cons]
        exact ⟨by simp [List.prefix_cons_inj], List.drop_suffix _ _⟩
      | ret status w1 =>
        rcases execute_ret _ _ _ _ _ hex with ⟨hs, hhead⟩ | ⟨hs, hhead⟩
        · have hexit : isExitLine l = true := by rw [isExitLine_eq l]; simpa using hhead
          subst hs
          simp only [ne_eq, not_true_eq_false, if_false, linesBeforeExit_cons_exit l rest hexit,
            List.map_cons, List.map_nil, List.take_succ_cons, List.take_zero,
            List.drop_succ_cons, List.drop_zero]
          exact ⟨List.prefix_refl _, List.suffix_refl _⟩
        · have hexit : isExitLine l = false := by rw [isExitLine_eq l]; simpa using hhead
          subst hs
          simp only [ne_eq, one_ne_zero, not_false_eq_true, if_true,
            linesBeforeExit_cons_other l rest hexit, List.map_cons, List.take_succ_cons,
            List.drop_succ_cons]
          exact ⟨(List.prefix_cons_inj _).2 (ih (n + 1) w1).1, (ih (n + 1) w1).2⟩

/-- When, for every line up to and including the first `exit` line, the
allocations of the tokenizer succeed, the line has fewer tokens than
`TOKENS_OVERFLOW` and its command returns: these lines are dispatched, the
others are never read, and the loop returns after an `exit` line or else
ends through `exit(EXIT_SUCCESS)` at end of file. -/
theorem bsh_loop_run (env : Nat → Env) (lines : List (List Char)) (n : Nat) (w : World)
    (hret : ∀ (i : Nat) (l : List Char), i ≤ linesBeforeExit lines → lines[i]? = some l →
      allocOk (env (n + i)) (line_tokens l).length = true ∧
      (line_tokens l).length < TOKENS_OVERFLOW ∧
      ∃ w1 s w2, execute (env (n + i)) (line_tokens l) w1 = .ret s w2) :
    (bsh_loop env .eof lines n w).dispatched
        = (lines.take (linesBeforeExit lines + 1)).map line_tokens ∧
    (bsh_loop env .eof lines n w).unread = lines.drop (linesBeforeExit lines + 1) ∧
    (bsh_loop env .eof lines n w).stop
        = if linesBeforeExit lines < lines.length then none else some (.exit EXIT_SUCCESS) := by
  induction lines generalizing n w with
  | nil => simp [bsh_loop_nil, linesBeforeExit]
  | cons l rest ih =>
    rw [bsh_loop_cons env .eof l rest n w]
    obtain ⟨hal, hlt, w0, hex0⟩ := hret 0 l (Nat.zero_le _) (by simp)
    rw [Nat.add_zero] at hal hex0
    obtain ⟨s, w2, hex⟩ := execute_returns_indep _ _ w0 (w.print (str "> ")) hex0
    rw [(splitStop_none_iff (env n) _ _).2 ⟨hal, hlt⟩]
    simp only
    rw [hex]
    rcases execute_ret _ _ _ _ _ hex with ⟨hs, hhead⟩ | ⟨hs, hhead⟩
    · have hexit : isExitLine l = true := by rw [isExitLine_eq l]; simpa using hhead
      subst hs
      simp [linesBeforeExit_cons_exit l rest hexit]
    · have hexit : isExitLine l = false := by rw [isExitLine_eq l]; simpa using hhead
      subst hs
      have hk := linesBeforeExit_cons_other l rest hexit
      have hret' : ∀ (i : Nat) (l' : List Char), i ≤ linesBeforeExit rest →
          rest[i]? = some l' →
          allocOk (env (n + 1 + i)) (line_tokens l').length = true ∧
          (line_tokens l').length < TOKENS_OVERFLOW ∧
          ∃ w1 s w2, execute (env (n + 1 + i)) (line_tokens l') w1 = .ret s w2 := by
        intro i l' hi hl
        have := hret (i + 1) l' (by omega) (by simpa using hl)
        rwa [show n + (i + 1) = n + 1 + i by omega] at this
      obtain ⟨h1, h2, h3⟩ := ih (n + 1) w2 hret'
      simp only [ne_eq, one_ne_zero, not_false_eq_true, if_true, hk, List.map_cons,
        List.take_succ_cons, List.drop_succ_cons, h1, h2, h3, List.length_cons,
        Nat.add_lt_add_iff_right, true_and]

/-- The loop returns or ends through `exit(EXIT_SUCCESS)` only when, for
every line up to and including the first `exit` line, the allocations of
the tokenizer succeed, the line has fewer tokens than `TOKENS_OVERFLOW` and
its command returns. -/
theorem bsh_loop_success_only (env : Nat → Env) (lines : List (List Char)) (n : Nat)
    (w : World)
    (hs : (bsh_loop env .eof lines n w).stop = none ∨
      (bsh_loop env .eof lines n w).stop = some (.exit EXIT_SUCCESS)) :
    ∀ (i : Nat) (l : List Char), i ≤ linesBeforeExit lines → lines[i]? = some l →
      allocOk (env (n + i)) (line_tokens l).length = true ∧
      (line_tokens l).length < TOKENS_OVERFLOW ∧
      ∃ w1 s w2, execute (env (n + i)) (line_tokens l) w1 = .ret s w2 := by
  induction lines generalizing n w with
  | nil => intro i l _ hl; simp at hl
  | cons l rest ih =>
    rw [bsh_loop_cons env .eof l rest n w] at hs
    cases hsp : splitStop (env n) (line_tokens l).length (w.print (str "> ")) with
    | some r =>
      rw [hsp] at hs
      simp only [reduceCtorEq, Option.some.injEq, false_or] at hs
      exact absurd hs (splitStop_stop _ _ _ _ hsp)
    | none =>
      rw [hsp] at hs
      simp only at hs
      have hok := (splitStop_none_iff (env n) _ _).1 hsp
      cases hex : execute (env n) (line_tokens l) (w.print (str "> ")) with
      | stop s w1 =>
        rw [hex] at hs
        simp only [reduceCtorEq, Option.some.injEq, false_or] at hs
        exact absurd hs (execute_stop _ _ _ _ _ hex)
      | ret status w1 =>
        rw [hex] at hs
        have h0 : allocOk (env (n + 0)) (line_tokens l).length = true ∧
            (line_tokens l).length < TOKENS_OVERFLOW ∧
            ∃ w1 s w2, execute (env (n + 0)) (line_tokens l) w1 = .ret s w2 :=
          ⟨hok.1, hok.2, _, _, _, hex⟩
        rcases execute_ret _ _ _ _ _ hex with ⟨hst, hhead⟩ | ⟨hst, hhead⟩
        · have hexit : isExitLine l = true := by rw [isExitLine_eq l]; simpa using hhead
          intro i l' hi hl
          rw [linesBeforeExit_cons_exit l rest hexit] at hi
          obtain rfl : i = 0 := by omega
          simp only [List.getElem?_cons_zero, Option.some.injEq] at hl
          subst hl
          exact h0
        · have hexit : isExitLine l = false := by rw [isExitLine_eq l]; simpa using hhead
          subst hst
          simp only [ne_eq, one_ne_zero, not_false_eq_true, if_true] at hs
          intro i l' hi hl
          rw [linesBeforeExit_cons_other l rest hexit] at hi
          cases i with
          | zero =>
            simp only [List.getElem?_cons_zero, Option.some.injEq] at hl
            subst hl
            exact h0
          | succ j =>
            have := ih (n + 1) w1 hs j l' (by omega) (by simpa using hl)
            rwa [show n + 1 + j = n + (j + 1) by omega] at this

/-! ## Lemmas on `cat` -/

theorem fgets_scan_line (k : Nat) (l rest : List Char) (hl : ∀ c ∈ l, c ≠ Char.ofNat 10)
    (hk : l.length < k) :
    fgets_scan k (l ++ Char.ofNat 10 :: rest) = (l ++ [Char.ofNat 10], rest) := by
  induction l generalizing k with
  | nil =>
    obtain ⟨k', rfl⟩ : ∃ k', k = k' + 1 := ⟨k - 1, by simp at hk; omega⟩
    simp [fgets_scan]
  | cons c cs ih =>
    obtain ⟨k', rfl⟩ : ∃ k', k = k' + 1 := ⟨k - 1, by simp at hk; omega⟩
    have hc : c ≠ Char.ofNat 10 := hl c (by simp)
    have hk' : cs.length < k' := by simp at hk; omega
    simp only [List.cons_append, fgets_scan, hc, if_false, List.append_eq]
    rw [ih k' (fun d hd => hl d (by simp [hd])) hk']

theorem fgets_scan_full (k : Nat) (p rest : List Char) (hp : ∀ c ∈ p, c ≠ Char.ofNat 10)
    (hk : k ≤ p.length) :
    fgets_scan k (p ++ rest) = (p.take k, p.drop k ++ rest) := by
  induction p generalizing k with
  | nil =>
    have : k = 0 := by simpa using hk
    subst this
    simp [fgets_scan]
  | cons c cs ih =>
    cases k with
    | zero => simp [fgets_scan]
    | succ k' =>
      have hc : c ≠ Char.ofNat 10 := hp c (by simp)
      have hk' : k' ≤ cs.length := by simp at hk; omega
      simp only [List.cons_append, fgets_scan, hc, if_false, List.take_succ_cons,
        List.drop_succ_cons, List.append_eq]
      rw [ih k' (fun d hd => hp d (by simp [hd])) hk']

theorem fgets_scan_rest (k : Nat) (l : List Char) (hl : ∀ c ∈ l, c ≠ Char.ofNat 10)
    (hk : l.length ≤ k) : fgets_scan k l = (l, []) := by
  induction l generalizing k with
  | nil => cases k <;> simp [fgets_scan]
  | cons c cs ih =>
    obtain ⟨k', rfl⟩ : ∃ k', k = k' + 1 := ⟨k - 1, by simp at hk; omega⟩
    have hc : c ≠ Char.ofNat 10 := hl c (by simp)
    have hk' : cs.length ≤ k' := by simp at hk; omega
    simp only [fgets_scan, hc, if_false]
    rw [ih k' (fun d hd => hl d (by simp [hd])) hk']

theorem takeWhile_nulFree (l : List Char) (h : NUL ∉ l) :
    l.takeWhile (fun c => c != NUL) = l := by
  rw [List.takeWhile_eq_self_iff]
  intro c hc
  have : c ≠ NUL := fun e => h (e ▸ hc)
  simpa using this

/-- One turn of the loop of `bsh_cat` on a chunk without NUL: all of the
chunk but its last character is printed, then a newline. -/
theorem cat_loop_step (bufferSize fuel : Nat) (stream chunk rest : List Char) (w : World)
    (hf : fgets bufferSize stream = some (chunk, rest)) (hn : NUL ∉ chunk) (hne : chunk ≠ []) :
    cat_loop bufferSize (fuel + 1) stream w
      = cat_loop bufferSize fuel rest (w.print (chunk.dropLast ++ str "\n")) := by
  obtain ⟨init, x, rfl⟩ : ∃ init x, chunk = init ++ [x] :=
    ⟨_, _, (List.dropLast_append_getLast hne).symm⟩
  have hlen : strlen (init ++ [x]) = init.length + 1 := by
    simp [strlen, takeWhile_nulFree _ hn]
  have hset : (init ++ [x]).set init.length NUL = init ++ [NUL] := by
    rw [List.set_append_right _ _ (le_refl _)]
    simp
  have hinit : NUL ∉ init := fun hm => hn (by simp [hm])
  have hcstr : cstr (init ++ [NUL]) = init := by
    rw [cstr, List.takeWhile_append_of_pos]
    · simp [NUL]
    · intro c hc
      have : c ≠ NUL := fun e => hinit (e ▸ hc)
      simpa using this
  simp only [cat_loop, hf, hlen, Nat.add_sub_cancel, hset, hcstr, List.dropLast_concat]
  simp

theorem cat_loop_end (bufferSize fuel : Nat) (w : World) :
    cat_loop bufferSize (fuel + 1) [] w = .ok w := by
  simp [cat_loop, fgets]

/-- On a file in which every line ends with a newline, has no NUL and has at
most `bufferSize - 2` characters before the newline, the loop of `bsh_cat`
prints the file as it is. -/
theorem cat_loop_terminated_lines (bufferSize fuel : Nat) (lines : List (List Char)) (w : World)
    (hl : ∀ l ∈ lines, (∀ c ∈ l, c ≠ Char.ofNat 10) ∧ NUL ∉ l ∧ l.length + 2 ≤ bufferSize)
    (hfuel : lines.length < fuel) :
    cat_loop bufferSize fuel ((lines.map (fun l => l ++ [Char.ofNat 10])).flatten) w
      = .ok (w.print ((lines.map (fun l => l ++ [Char.ofNat 10])).flatten)) := by
  induction lines generalizing fuel w with
  | nil =>
    obtain ⟨f, rfl⟩ : ∃ f, fuel = f + 1 := ⟨fuel - 1, by simp at hfuel; omega⟩
    simp [cat_loop_end, print_nil]
  | cons l ls ih =>
    obtain ⟨f, rfl⟩ : ∃ f, fuel = f + 1 := ⟨fuel - 1, by simp at hfuel; omega⟩
    obtain ⟨hnl, hnul, hlen⟩ := hl l (by simp)
    have hfg : fgets bufferSize ((l ++ [Char.ofNat 10])
        ++ (ls.map (fun l => l ++ [Char.ofNat 10])).flatten)
        = some (l ++ [Char.ofNat 10], (ls.map (fun l => l ++ [Char.ofNat 10])).flatten) := by
      have := fgets_scan_line (bufferSize - 1) l
        ((ls.map (fun l => l ++ [Char.ofNat 10])).flatten) hnl (by omega)
      simp only [fgets, List.append_assoc, List.singleton_append]
      rw [this]
      simp
    have hn : NUL ∉ l ++ [Char.ofNat 10] := by
      simp only [List.mem_append, List.mem_singleton, not_or]
      exact ⟨hnul, by decide⟩
    simp only [List.map_cons, List.flatten_cons]
    rw [cat_loop_step bufferSize f _ _ _ w hfg hn (by simp),
      ih f _ (fun x hx => hl x (by simp [hx])) (by simp at hfuel; omega)]
    simp [print_print, str]

/-- On a line of `n + m` characters `c` with `n = bufferSize - 1`, ended
by a newline, the loop of `bsh_cat` prints `n - 1` of the first `n`
characters, a newline, the other `m` characters and a newline. -/
theorem cat_loop_long_line (bufferSize fuel n m : Nat) (c : Char) (w : World)
    (hc : c ≠ Char.ofNat 10) (hcn : c ≠ NUL) (hn : n + 1 = bufferSize) (h1 : 1 ≤ n)
    (hm : m < n) (hfuel : 3 ≤ fuel) :
    cat_loop bufferSize fuel (List.replicate (n + m) c ++ [Char.ofNat 10]) w
      = .ok (w.print (List.replicate (n - 1) c ++ [Char.ofNat 10]
          ++ (List.replicate m c ++ [Char.ofNat 10]))) := by
  obtain ⟨f, rfl⟩ : ∃ f, fuel = f + 3 := ⟨fuel - 3, by omega⟩
  have hx : ∀ (k : Nat), ∀ d ∈ List.replicate k c, d ≠ Char.ofNat 10 := by
    intro k d hd
    rw [List.eq_of_mem_replicate hd]
    exact hc
  have hnul : ∀ (k : Nat), NUL ∉ List.replicate k c := by
    intro k hd
    exact hcn (List.eq_of_mem_replicate hd).symm
  have hne : List.replicate (n + m) c ++ [Char.ofNat 10] ≠ [] := by simp
  have hf1 : fgets bufferSize (List.replicate (n + m) c ++ [Char.ofNat 10])
      = some (List.replicate n c, List.replicate m c ++ [Char.ofNat 10]) := by
    have := fgets_scan_full n (List.replicate (n + m) c) [Char.ofNat 10] (hx _) (by simp)
    simp only [fgets]
    rw [if_neg hne, ← hn, Nat.add_sub_cancel, this]
    simp
  have hne2 : List.replicate m c ++ [Char.ofNat 10] ≠ [] := by simp
  have hf2 : fgets bufferSize (List.replicate m c ++ [Char.ofNat 10])
      = some (List.replicate m c ++ [Char.ofNat 10], []) := by
    have := fgets_scan_line n (List.replicate m c) [] (hx m) (by simp; omega)
    simp only [fgets]
    rw [if_neg hne2, ← hn, Nat.add_sub_cancel, this]
  have hn1 : List.replicate n c ≠ [] := by
    intro h
    have := congrArg List.length h
    simp at this
    omega
  have hn2 : NUL ∉ List.replicate m c ++ [Char.ofNat 10] := by
    simp only [List.mem_append, List.mem_singleton, not_or]
    exact ⟨hnul m, by decide⟩
  rw [cat_loop_step bufferSize (f + 2) _ _ _ w hf1 (hnul n) hn1,
    cat_loop_step bufferSize (f + 1) _ _ _ _ hf2 hn2 hne2, cat_loop_end, print_print]
  simp [str]

theorem bsh_cat_opened (env : Env) (arg0 path : CStr) (content : List Char) (w w1 : World)
    (ho : env.fopen_r path = some content)
    (hrun : cat_loop 4096 (content.length + 1) content w = .ok w1) :
    bsh_cat env [arg0, path] w = .ret 1 w1 := by
  simp [bsh_cat, arg1, ho, hrun]

theorem fgets_scan_consumes (k : Nat) (c : Char) (cs : List Char) :
    (fgets_scan (k + 1) (c :: cs)).2.length ≤ cs.length := by
  induction k generalizing c cs with
  | zero =>
    simp only [fgets_scan]
    split
    · simp
    · cases cs <;> simp [fgets_scan]
  | succ k ih =>
    rw [fgets_scan]
    split
    · simp
    · cases cs with
      | nil => simp [fgets_scan]
      | cons d ds =>
        have := ih d ds
        simp only [List.length_cons]
        omega

/-- The fuel given to the loop of `bsh_cat` is never used up. -/
theorem cat_loop_fuel (bufferSize fuel : Nat) (content : List Char) (w : World)
    (hb : 2 ≤ bufferSize) (hf : content.length < fuel) :
    cat_loop bufferSize fuel content w ≠ .error .fuel := by
  induction fuel generalizing content w with
  | zero => omega
  | succ fuel ih =>
    cases content with
    | nil => simp [cat_loop, fgets]
    | cons c cs =>
      obtain ⟨k, hk⟩ : ∃ k, bufferSize - 1 = k + 1 := ⟨bufferSize - 2, by omega⟩
      have hcons := fgets_scan_consumes k c cs
      simp only [cat_loop, fgets, hk]
      simp only [reduceCtorEq, if_false]
      split
      · simp
      · apply ih
        simp only [List.length_cons] at hf
        omega

/-! ## Further lemmas on the tokenizer -/

theorem toks_length_le (fuel : Nat) (tk : Option (CStr × List Char)) :
    (toks fuel tk).length + 1 ≤ need tk := by
  induction fuel generalizing tk with
  | zero => cases tk <;> simp [toks, need]
  | succ fuel ih =>
    cases tk with
    | none => simp [toks, need]
    | some ts =>
      obtain ⟨t, save⟩ := ts
      have h1 := ih (strtok save BSH_TOK_DELIM)
      have h2 := strtok_need save
      simp only [toks, need, List.length_cons]
      omega

theorem flatten_filter_nonempty (L : List (List Char)) :
    (L.filter (fun t => !t.isEmpty)).flatten = L.flatten := by
  induction L with
  | nil => rfl
  | cons t ts ih =>
    cases t with
    | nil => simpa using ih
    | cons c cs => simp [List.filter_cons, ih]

theorem flatten_splitOnP (s : List Char) :
    (s.splitOnP isDelim).flatten = s.filter (fun c => !isDelim c) := by
  induction s with
  | nil => simp
  | cons x xs ih =>
    rw [List.splitOnP_cons]
    by_cases hx : isDelim x = true
    · simp [hx, ih]
    · cases hsp : xs.splitOnP isDelim with
      | nil => exact absurd hsp (List.splitOnP_ne_nil _ _)
      | cons h tl =>
        rw [hsp] at ih
        simp only [hx, Bool.false_eq_true, if_false, List.modifyHead_cons, List.flatten_cons,
          List.cons_append]
        rw [List.flatten_cons] at ih
        simp [List.filter_cons, hx, ih]

theorem nonDelimRuns_flatten (line : List Char) :
    (nonDelimRuns line).flatten = line.filter (fun c => !isDelim c) := by
  rw [nonDelimRuns, flatten_filter_nonempty, flatten_splitOnP]


theorem pushStep_cases (env : Env) (k : Nat) (w : World) :
    pushStep env k w = none ∨
    (pushStep env k w = some (.fault .signedOverflow, w) ∧ TOKENS_OVERFLOW ≤ k + 1) ∨
    pushStep env k w = some (.exit EXIT_FAILURE, w.eprint (str "bsh: allocation error\n")) := by
  unfold pushStep
  by_cases h1 : INT_MAX < k + 1
  · rw [if_pos h1]
    exact Or.inr (Or.inl ⟨rfl, by unfold TOKENS_OVERFLOW; omega⟩)
  · rw [if_neg h1]
    by_cases h2 : capAt k ≤ k + 1
    · rw [if_pos h2]
      by_cases h3 : INT_MAX < capAt k + BSH_TOK_BUFSIZE
      · rw [if_pos h3]
        refine Or.inr (Or.inl ⟨rfl, ?_⟩)
        unfold capAt BSH_TOK_BUFSIZE at h2 h3
        unfold TOKENS_OVERFLOW
        unfold INT_MAX at h3 ⊢
        omega
      · rw [if_neg h3]
        cases env.alloc_ok (alloc_bytes (capAt k + BSH_TOK_BUFSIZE))
        · exact Or.inr (Or.inr (by simp))
        · exact Or.inl (by simp)
    · rw [if_neg h2]
      exact Or.inl rfl

theorem pushAllStop_cases (env : Env) (k m : Nat) (w : World) :
    pushAllStop env k m w = none ∨
    (pushAllStop env k m w = some (.fault .signedOverflow, w) ∧ TOKENS_OVERFLOW ≤ k + m) ∨
    pushAllStop env k m w
      = some (.exit EXIT_FAILURE, w.eprint (str "bsh: allocation error\n")) := by
  induction m generalizing k with
  | zero => exact Or.inl rfl
  | succ m ih =>
    simp only [pushAllStop]
    rcases pushStep_cases env k w with h | ⟨h, hb⟩ | h
    · rw [h]
      rcases ih (k + 1) with h' | ⟨h', hb'⟩ | h'
      · exact Or.inl h'
      · exact Or.inr (Or.inl ⟨h', by omega⟩)
      · exact Or.inr (Or.inr h')
    · rw [h]
      exact Or.inr (Or.inl ⟨rfl, by omega⟩)
    · rw [h]
      exact Or.inr (Or.inr rfl)

/-- Below `TOKENS_OVERFLOW` tokens, `bsh_split_line` loses control only
through the branch `if (!tokens)`. -/
theorem splitStop_alloc_fail (env : Env) (n : Nat) (w : World) (hn : n < TOKENS_OVERFLOW)
    (hal : allocOk env n = false) :
    splitStop env n w = some (.exit EXIT_FAILURE, w.eprint (str "bsh: allocation error\n")) := by
  have hnone : splitStop env n w ≠ none := by
    intro h
    have := ((splitStop_none_iff env n w).1 h).1
    rw [hal] at this
    cases this
  unfold splitStop at hnone ⊢
  cases h0 : env.alloc_ok (alloc_bytes BSH_TOK_BUFSIZE)
  · simp
  · rw [h0] at hnone
    simp only [if_true] at hnone ⊢
    rcases pushAllStop_cases env 0 n w with h | ⟨_, hb⟩ | h
    · exact absurd h hnone
    · omega
    · exact h

theorem bsh_split_line_alloc_fail (env : Env) (line : List Char) (w : World)
    (hn : (line_tokens line).length < TOKENS_OVERFLOW)
    (hal : allocOk env (line_tokens line).length = false) :
    bsh_split_line env line w
      = .stop (.exit EXIT_FAILURE) (w.eprint (str "bsh: allocation error\n")) := by
  rw [bsh_split_line_eq, splitOutcome, splitStop_alloc_fail env _ w hn hal]

theorem allocOk_of_all (env : Env) (n : Nat) (h : ∀ bytes, env.alloc_ok bytes = true) :
    allocOk env n = true :=
  (allocOk_iff env n).2 (fun _ _ => h _)

/-- On a line of `TOKENS_OVERFLOW` tokens or more, when the allocations
succeed, `bsh_split_line` ends in the signed overflow of `bufsize`. -/
theorem bsh_split_line_overflow (env : Env) (line : List Char) (w : World)
    (hal : allocOk env (TOKENS_OVERFLOW - 1) = true)
    (hn : TOKENS_OVERFLOW ≤ (line_tokens line).length) :
    bsh_split_line env line w = .stop (.fault .signedOverflow) w := by
  rw [bsh_split_line_eq, splitOutcome, splitStop_overflow env _ w hal hn]

theorem line_tokens_replicate (n : Nat) :
    line_tokens ((List.replicate n (str "a ")).flatten) = List.replicate n (str "a") := by
  rw [line_tokens_nulFree _ (nul_not_mem_replicate n), nonDelimRuns_replicate]

/-- The state in which `bsh_split_line` returns on a line of fewer than
`TOKENS_OVERFLOW` tokens when its allocations succeed. -/
theorem finalBuf_facts (ds : List CStr) :
    (argv (finalBuf ds).tokens).length = (finalBuf ds).position ∧
    (finalBuf ds).tokens.take ((finalBuf ds).position + 1)
      = (argv (finalBuf ds).tokens).map Cell.tok ++ [Cell.null] ∧
    (finalBuf ds).stores
      = (List.range ((finalBuf ds).position + 1)).map (fun i => (i, 64 * (i / 64 + 1))) ∧
    (∀ pb ∈ (finalBuf ds).stores, pb.1 < pb.2) ∧
    (finalBuf ds).tokens.length = (finalBuf ds).bufsize ∧
    (finalBuf ds).bufsize = 64 * ((finalBuf ds).position / 64 + 1) ∧
    (finalBuf ds).position = ds.length := by
  have hlt := capAt_gt ds.length
  refine ⟨?_, ?_, ?_, ?_, ?_, ?_, rfl⟩
  · rw [argv_finalBuf]; rfl
  · rw [argv_finalBuf]
    simp only [finalBuf]
    rw [List.take_append_eq_append_take]
    simp
  · simp [finalBuf, capAt, BSH_TOK_BUFSIZE]
  · intro pb hpb
    simp only [finalBuf, List.mem_map, List.mem_range] at hpb
    obtain ⟨i, _, rfl⟩ := hpb
    exact capAt_gt i
  · simp only [finalBuf, List.length_append, List.length_map, List.length_cons,
      List.length_replicate]
    omega
  · simp [finalBuf, capAt, BSH_TOK_BUFSIZE]

theorem line_tokens_length_le (line : List Char) : (line_tokens line).length ≤ line.length := by
  have h1 := toks_length_le (line.length + 1) (strtok line BSH_TOK_DELIM)
  have h2 := strtok_need line
  unfold line_tokens
  omega

/-! ## The claims -/

/-- C1, counterexample: when `malloc` returns NULL, `bsh_split_line` on the
line `ls` does not return the tokens of the line: through the branch
`if (!tokens)` it writes `bsh: allocation error` to standard error and the
process exits with `EXIT_FAILURE`.  And on the line made of 2147483584
(2^31 - 64) tokens `a`, with every allocation succeeding, it does not return
either: `bufsize`, an `int` that holds 2147483584 by then, has to grow by
64. -/

theorem bsh_split_line_no_return :
    NUL ∉ str "ls\n" ∧
    bsh_split_line envFail (str "ls\n") world0
      = .stop (.exit EXIT_FAILURE) { world0 with err := str "bsh: allocation error\n" } ∧
    NUL ∉ (List.replicate 2147483584 (str "a ")).flatten ∧
    bsh_split_line envOk (List.replicate 2147483584 (str "a ")).flatten world0
      = .stop (.fault .signedOverflow) world0 ∧
    ¬ (∀ (env : Env) (line : List Char) (w : World), NUL ∉ line →
        ∃ b, bsh_split_line env line w = .ok b ∧ argv b.tokens = nonDelimRuns line) := by
  have h2 : bsh_split_line envFail (str "ls\n") world0
      = .stop (.exit EXIT_FAILURE) { world0 with err := str "bsh: allocation error\n" } := by
    decide
  refine ⟨by decide, h2, nul_not_mem_replicate _, ?_, ?_⟩
  · apply bsh_split_line_overflow
    · exact allocOk_of_all envOk _ (fun _ => rfl)
    · rw [line_tokens_replicate, List.length_replicate]
      decide
  · intro h
    obtain ⟨b, hb, _⟩ := h envFail (str "ls\n") world0 (by decide)
    rw [h2] at hb
    cases hb

/-- C1, amended: on every line without an embedded NUL that has fewer than
2147483584 (2^31 - 64) maximal runs of non-delimiter characters, the
delimiters being space, tab, carriage return, newline and bell: when the
allocations that `bsh_split_line` asks for succeed, it returns (as its NULL
terminated array) exactly these runs, in order of occurrence; when one of
them fails, it writes `bsh: allocation error` to standard error and the
process exits with `EXIT_FAILURE`.  The runs put end to end are the
non-delimiter characters of the line; no run is empty, none contains a
delimiter, and there is no run exactly when every character of the line is
a delimiter (in particular for the empty line). -/

theorem bsh_split_line_runs (env : Env) (line : List Char) (w : World) (h : NUL ∉ line)
    (hn : (nonDelimRuns line).length < TOKENS_OVERFLOW) :
    (allocOk env (nonDelimRuns line).length = true →
      ∃ b, bsh_split_line env line w = .ok b ∧ argv b.tokens = nonDelimRuns line) ∧
    (allocOk env (nonDelimRuns line).length = false →
      bsh_split_line env line w
        = .stop (.exit EXIT_FAILURE) (w.eprint (str "bsh: allocation error\n"))) ∧
    (nonDelimRuns line).flatten = line.filter (fun c => !BSH_TOK_DELIM.contains c) ∧
    (∀ t ∈ nonDelimRuns line, t ≠ [] ∧ ∀ c ∈ t, c ∉ BSH_TOK_DELIM) ∧
    (nonDelimRuns line = [] ↔ ∀ c ∈ line, c ∈ BSH_TOK_DELIM) ∧
    BSH_TOK_DELIM = str " \t\r\n\x07" ∧
    TOKENS_OVERFLOW = 2147483584 := by
  have ht := line_tokens_nulFree line h
  refine ⟨?_, ?_, nonDelimRuns_flatten line, nonDelimRuns_token line,
    nonDelimRuns_eq_nil_iff line, by decide, by decide⟩
  · intro hal
    rw [← ht] at hal hn
    refine ⟨_, bsh_split_line_ok env line w hal hn, ?_⟩
    rw [argv_finalBuf, ht]
  · intro hal
    rw [← ht] at hal hn
    exact bsh_split_line_alloc_fail env line w hn hal

/-- Witness of C1, amended, on the line `ls  -l<tab>/tmp<newline>`: with the
allocations succeeding the tokens are `ls`, `-l`, `/tmp`; with `malloc`
failing the process exits. -/
theorem bsh_split_line_runs_witness :
    NUL ∉ str "ls  -l\t/tmp\n" ∧
    (nonDelimRuns (str "ls  -l\t/tmp\n")).length < TOKENS_OVERFLOW ∧
    (∃ b, bsh_split_line envOk (str "ls  -l\t/tmp\n") world0 = .ok b ∧
      argv b.tokens = [str "ls", str "-l", str "/tmp"]) ∧
    bsh_split_line envFail (str "ls  -l\t/tmp\n") world0
      = .stop (.exit EXIT_FAILURE) (world0.eprint (str "bsh: allocation error\n")) := by
  have hr : nonDelimRuns (str "ls  -l\t/tmp\n") = [str "ls", str "-l", str "/tmp"] := by decide
  have hn : (nonDelimRuns (str "ls  -l\t/tmp\n")).length < TOKENS_OVERFLOW := by
    rw [hr]; decide
  have hw1 := bsh_split_line_runs envOk (str "ls  -l\t/tmp\n") world0 (by decide) hn
  have hw2 := bsh_split_line_runs envFail (str "ls  -l\t/tmp\n") world0 (by decide) hn
  refine ⟨by decide, hn, ?_, hw2.2.1 (by rw [hr]; rfl)⟩
  obtain ⟨b, hb, hargs⟩ := hw1.1 (allocOk_of_all envOk _ (fun _ => rfl))
  exact ⟨b, hb, hargs.trans hr⟩

/-- C2: for every non-empty argument vector `arg0 :: rest`: when an entry of
the table has a name equal to `arg0` (equality of the whole strings,
character by character), `bsh_execute` is the handler of the first such
entry applied to the unchanged vector, whatever the launcher is (the
launcher takes no part); when no entry has that name, `bsh_execute` is the
launcher applied to the unchanged vector (no handler takes part).  This
holds for every table, and so for `builtins`. -/

theorem bsh_execute_dispatch (table : List Builtin) (launch : List CStr → World → Outcome)
    (arg0 : CStr) (rest : List CStr) (w : World) :
    (∀ (pre : List Builtin) (b : Builtin) (post : List Builtin),
        table = pre ++ b :: post → b.name = arg0 → (∀ b' ∈ pre, b'.name ≠ arg0) →
        bsh_execute table launch (arg0 :: rest) w = b.func (arg0 :: rest) w ∧
        ∀ launch' : List CStr → World → Outcome,
          bsh_execute table launch' (arg0 :: rest) w = b.func (arg0 :: rest) w) ∧
    ((∀ b ∈ table, b.name ≠ arg0) →
        bsh_execute table launch (arg0 :: rest) w = launch (arg0 :: rest) w) := by
  constructor
  · intro pre b post ht hb hpre
    subst ht
    exact ⟨execute_scan_first launch arg0 _ w pre b post hb hpre,
      fun launch' => execute_scan_first launch' arg0 _ w pre b post hb hpre⟩
  · intro h
    exact execute_scan_none launch arg0 _ w table h

/-- Witness of C2, on the table of the program: `pwd` goes to `bsh_pwd`,
`Pwd -x` matches no name and goes to `bsh_launch`. -/
theorem bsh_execute_dispatch_witness :
    bsh_execute (builtins envOk) (bsh_launch envOk) [str "pwd"] world0
        = bsh_pwd envOk [str "pwd"] world0 ∧
    bsh_execute (builtins envOk) (bsh_launch envOk) [str "Pwd", str "-x"] world0
        = bsh_launch envOk [str "Pwd", str "-x"] world0 :=
  ⟨((bsh_execute_dispatch (builtins envOk) (bsh_launch envOk) (str "pwd") [] world0).1
      [⟨str "cd", bsh_cd envOk⟩] ⟨str "pwd", bsh_pwd envOk⟩
      [⟨str "ls", bsh_ls envOk⟩, ⟨str "touch", bsh_touch envOk⟩, ⟨str "mkdir", bsh_mkdir envOk⟩,
       ⟨str "echo", bsh_echo⟩, ⟨str "cat", bsh_cat envOk⟩, ⟨str "whoami", bsh_whoami envOk⟩,
       ⟨str "host", bsh_host envOk⟩, ⟨str "help", bsh_help⟩, ⟨str "exit", bsh_exit⟩]
      rfl rfl (by decide)).1,
   (bsh_execute_dispatch (builtins envOk) (bsh_launch envOk) (str "Pwd") [str "-x"] world0).2
      (by decide)⟩

/-- C3, the code at a failing input: when `fopen` fails, `touch` hands the
NULL result to `fclose`, and when `getpwuid` finds no entry, `whoami`
reads `pw_name` through the NULL result: neither handler returns 1, and
the dispatcher does not return either. -/

theorem bsh_touch_whoami_fault :
    bsh_touch envFail [str "touch", str "/nonexistent/f"] world0
      = .stop (.fault .nullDeref) world0 ∧
    execute envFail [str "touch", str "/nonexistent/f"] world0
      = .stop (.fault .nullDeref) world0 ∧
    bsh_whoami envFail [str "whoami"] world0 = .stop (.fault .nullDeref) world0 ∧
    execute envFail [str "whoami"] world0 = .stop (.fault .nullDeref) world0 := by
  refine ⟨rfl, ?_, rfl, ?_⟩ <;> decide

/-- C4, counterexample: the input holds the lines `sleep 100` and `exit`,
and the child launched for the first line never reaches a terminal state.
The first line is dispatched and `bsh_launch` waits for ever: the line
whose first token is `exit` is never read, the loop does not return and the
process has no exit code.  And when `malloc` returns NULL, on the lines
`pwd` and `exit` nothing is dispatched: `bsh_split_line` ends the process
on the first line, with the exit code `EXIT_FAILURE`. -/

theorem bsh_loop_blocked_by_child :
    isExitLine (str "exit\n") = true ∧
    (bsh_loop (fun _ => envChildNeverEnds) .eof [str "sleep 100\n", str "exit\n"] 0 world0)
      = { dispatched := [[str "sleep", str "100"]], unread := [str "exit\n"],
          world := { world0 with out := str "> ", waits := [.stopped 19] },
          stop := some .hang } ∧
    main (fun _ => envChildNeverEnds) .eof [str "sleep 100\n", str "exit\n"] world0 = none ∧
    (bsh_loop (fun _ => envFail) .eof [str "pwd\n", str "exit\n"] 0 world0)
      = { dispatched := [], unread := [str "exit\n"],
          world := { world0 with out := str "> ", err := str "bsh: allocation error\n" },
          stop := some (.exit EXIT_FAILURE) } ∧
    main (fun _ => envFail) .eof [str "pwd\n", str "exit\n"] world0 = some EXIT_FAILURE ∧
    ¬ (∀ (env : Nat → Env) (lines : List (List Char)) (w : World),
        main env .eof lines w = some EXIT_SUCCESS) := by
  refine ⟨by decide, by decide, by decide, by decide, by decide, ?_⟩
  intro h
  have := h (fun _ => envChildNeverEnds) [str "sleep 100\n", str "exit\n"] world0
  revert this
  decide

/-- C4, amended: for every finite sequence of input lines followed by end of
file: the argument vectors that `bsh_loop` dispatches are, in order, the
tokens of the lines of an initial segment of the input that ends at the
latest with the first line whose first token is `exit`, and no line after
that line is read, whatever the allocations and the commands do.  The
dispatcher returns 0 exactly on the vectors whose first string is `exit`.
The process ends with the exit code `EXIT_SUCCESS` exactly when, for every
line up to and including the first `exit` line, `bsh_split_line` returns
and the command dispatched returns; then these lines are all dispatched,
and the loop returns right after the first `exit` line, or, when there is
none, after the last line the process ends through `exit(EXIT_SUCCESS)` at
end of file. -/

theorem bsh_loop_stops_at_first_exit (env : Nat → Env) (lines : List (List Char)) (w : World) :
    ((bsh_loop env .eof lines 0 w).dispatched
        <+: (lines.take (linesBeforeExit lines + 1)).map line_tokens ∧
      lines.drop (linesBeforeExit lines + 1) <:+ (bsh_loop env .eof lines 0 w).unread) ∧
    (∀ (e : Env) (args : List CStr) (w1 w2 : World) (s : Int),
      execute e args w1 = .ret s w2 → (s = 0 ↔ args.head? = some (str "exit"))) ∧
    (∀ (e : Env) (args : List CStr) (w1 : World),
      args.head? = some (str "exit") → execute e args w1 = .ret 0 w1) ∧
    ((∀ (i : Nat) (l : List Char), i ≤ linesBeforeExit lines → lines[i]? = some l →
        ∃ w1 b, bsh_split_line (env i) l w1 = .ok b ∧
          ∃ s w2, execute (env i) (argv b.tokens) w1 = .ret s w2) ↔
      main env .eof lines w = some EXIT_SUCCESS) ∧
    (main env .eof lines w = some EXIT_SUCCESS →
      (bsh_loop env .eof lines 0 w).dispatched
          = (lines.take (linesBeforeExit lines + 1)).map line_tokens ∧
      (bsh_loop env .eof lines 0 w).unread = lines.drop (linesBeforeExit lines + 1) ∧
      (bsh_loop env .eof lines 0 w).stop
          = (if linesBeforeExit lines < lines.length then none
             else some (.exit EXIT_SUCCESS))) := by
  have hmain : main env .eof lines w = some EXIT_SUCCESS ↔
      ((bsh_loop env .eof lines 0 w).stop = none ∨
        (bsh_loop env .eof lines 0 w).stop = some (.exit EXIT_SUCCESS)) := by
    unfold main
    cases (bsh_loop env .eof lines 0 w).stop with
    | none => simp
    | some s => cases s <;> simp
  have hto : (∀ (i : Nat) (l : List Char), i ≤ linesBeforeExit lines → lines[i]? = some l →
        ∃ w1 b, bsh_split_line (env i) l w1 = .ok b ∧
          ∃ s w2, execute (env i) (argv b.tokens) w1 = .ret s w2) →
      ∀ (i : Nat) (l : List Char), i ≤ linesBeforeExit lines → lines[i]? = some l →
        allocOk (env (0 + i)) (line_tokens l).length = true ∧
        (line_tokens l).length < TOKENS_OVERFLOW ∧
        ∃ w1 s w2, execute (env (0 + i)) (line_tokens l) w1 = .ret s w2 := by
    intro hH i l hi hl
    obtain ⟨w1, b, hb, s, w2, he⟩ := hH i l hi hl
    have hok := (bsh_split_line_ok_iff (env i) l w1).1 ⟨b, hb⟩
    rw [bsh_split_line_ok_eq _ _ _ _ hb, argv_finalBuf] at he
    rw [Nat.zero_add]
    exact ⟨hok.1, hok.2, w1, s, w2, he⟩
  have hfrom : main env .eof lines w = some EXIT_SUCCESS →
      ∀ (i : Nat) (l : List Char), i ≤ linesBeforeExit lines → lines[i]? = some l →
        ∃ w1 b, bsh_split_line (env i) l w1 = .ok b ∧
          ∃ s w2, execute (env i) (argv b.tokens) w1 = .ret s w2 := by
    intro hm i l hi hl
    obtain ⟨hal, hlt, w1, s, w2, he⟩ :=
      bsh_loop_success_only env lines 0 w (hmain.1 hm) i l hi hl
    rw [Nat.zero_add] at hal he
    refine ⟨w1, _, bsh_split_line_ok (env i) l w1 hal hlt, s, w2, ?_⟩
    rw [argv_finalBuf]
    exact he
  have hrun : main env .eof lines w = some EXIT_SUCCESS →
      (bsh_loop env .eof lines 0 w).dispatched
          = (lines.take (linesBeforeExit lines + 1)).map line_tokens ∧
      (bsh_loop env .eof lines 0 w).unread = lines.drop (linesBeforeExit lines + 1) ∧
      (bsh_loop env .eof lines 0 w).stop
          = (if linesBeforeExit lines < lines.length then none
             else some (.exit EXIT_SUCCESS)) :=
    fun hm => bsh_loop_run env lines 0 w (hto (hfrom hm))
  refine ⟨bsh_loop_initial_segment env lines 0 w, ?_, execute_exit, ⟨?_, hfrom⟩, hrun⟩
  · intro e args w1 w2 s h
    rcases execute_ret e args w1 w2 s h with ⟨hs, hh⟩ | ⟨hs, hh⟩
    · simp [hs, hh]
    · simp [hs, hh]
  · intro hH
    have h3 := (bsh_loop_run env lines 0 w (hto hH)).2.2
    rw [hmain, h3]
    split_ifs
    · exact Or.inl rfl
    · exact Or.inr rfl

/-- Witness of C4, amended: of the lines `echo hi`, ` exit now`, `pwd` the
first two are dispatched, the third is never read, and the exit code is
`EXIT_SUCCESS`.  Of the lines `exit`, `whoami` the first is dispatched and
the exit code is `EXIT_SUCCESS`, also when `getpwuid` fails, which `whoami`
does not survive: the second line is never read. -/
theorem bsh_loop_stops_at_first_exit_witness :
    (main (fun _ => envOk) .eof [str "echo hi\n", str " exit now\n", str "pwd\n"] world0
        = some EXIT_SUCCESS ∧
      (bsh_loop (fun _ => envOk) .eof [str "echo hi\n", str " exit now\n", str "pwd\n"] 0
        world0).dispatched = [[str "echo", str "hi"], [str "exit", str "now"]] ∧
      (bsh_loop (fun _ => envOk) .eof [str "echo hi\n", str " exit now\n", str "pwd\n"] 0
        world0).unread = [str "pwd\n"]) ∧
    (main (fun _ => { envFail with alloc_ok := fun _ => true }) .eof
        [str "exit\n", str "whoami\n"] world0 = some EXIT_SUCCESS ∧
      (bsh_loop (fun _ => { envFail with alloc_ok := fun _ => true }) .eof
        [str "exit\n", str "whoami\n"] 0 world0).dispatched = [[str "exit"]] ∧
      (bsh_loop (fun _ => { envFail with alloc_ok := fun _ => true }) .eof
        [str "exit\n", str "whoami\n"] 0 world0).unread = [str "whoami\n"]) := by
  have hk1 : linesBeforeExit [str "echo hi\n", str " exit now\n", str "pwd\n"] = 1 := by decide
  have hk2 : linesBeforeExit [str "exit\n", str "whoami\n"] = 0 := by decide
  have hH1 : ∀ (i : Nat) (l : List Char),
      i ≤ linesBeforeExit [str "echo hi\n", str " exit now\n", str "pwd\n"] →
      [str "echo hi\n", str " exit now\n", str "pwd\n"][i]? = some l →
      ∃ w1 b, bsh_split_line envOk l w1 = .ok b ∧
        ∃ s w2, execute envOk (argv b.tokens) w1 = .ret s w2 := by
    intro i l hi hl
    rw [hk1] at hi
    match i, hi, hl with
    | 0, _, hl =>
      simp only [List.getElem?_cons_zero, Option.some.injEq] at hl
      subst hl
      exact ⟨world0, _, rfl, _, _, rfl⟩
    | 1, _, hl =>
      simp only [List.getElem?_cons_succ, List.getElem?_cons_zero, Option.some.injEq] at hl
      subst hl
      exact ⟨world0, _, rfl, _, _, rfl⟩
  have hH2 : ∀ (i : Nat) (l : List Char),
      i ≤ linesBeforeExit [str "exit\n", str "whoami\n"] →
      [str "exit\n", str "whoami\n"][i]? = some l →
      ∃ w1 b, bsh_split_line { envFail with alloc_ok := fun _ => true } l w1 = .ok b ∧
        ∃ s w2, execute { envFail with alloc_ok := fun _ => true } (argv b.tokens) w1
          = .ret s w2 := by
    intro i l hi hl
    rw [hk2] at hi
    match i, hi, hl with
    | 0, _, hl =>
      simp only [List.getElem?_cons_zero, Option.some.injEq] at hl
      subst hl
      exact ⟨world0, _, rfl, _, _, rfl⟩
  have t1 := bsh_loop_stops_at_first_exit (fun _ => envOk)
    [str "echo hi\n", str " exit now\n", str "pwd\n"] world0
  have t2 := bsh_loop_stops_at_first_exit (fun _ => { envFail with alloc_ok := fun _ => true })
    [str "exit\n", str "whoami\n"] world0
  have m1 := t1.2.2.2.1.1 hH1
  have m2 := t2.2.2.2.1.1 hH2
  have r1 := t1.2.2.2.2 m1
  have r2 := t2.2.2.2.2 m2
  refine ⟨⟨m1, ?_, ?_⟩, ⟨m2, ?_, ?_⟩⟩
  · rw [r1.1, hk1]
    decide
  · rw [r1.2.1, hk1]
    rfl
  · rw [r2.1, hk2]
    decide
  · rw [r2.2.1, hk2]
    rfl

/-- C5, counterexample: on the line made of three spaces, a tab and a
newline, when `malloc` returns NULL, `bsh_split_line` does not return: it
writes `bsh: allocation error` to standard error and the process exits with
`EXIT_FAILURE`, so that `bsh_execute` is not reached and nothing returns
1. -/

theorem blank_line_alloc_failure :
    (∀ c ∈ str "   \t\n", c ∈ BSH_TOK_DELIM) ∧
    bsh_split_line envFail (str "   \t\n") world0
      = .stop (.exit EXIT_FAILURE) { world0 with err := str "bsh: allocation error\n" } ∧
    (bsh_loop (fun _ => envFail) .eof [str "   \t\n"] 0 world0).stop
      = some (.exit EXIT_FAILURE) ∧
    (bsh_loop (fun _ => envFail) .eof [str "   \t\n"] 0 world0).world.err
      = str "bsh: allocation error\n" ∧
    ¬ (∀ (env : Env) (line : List Char) (w : World), (∀ c ∈ line, c ∈ BSH_TOK_DELIM) →
        ∃ b, bsh_split_line env line w = .ok b ∧ execute env (argv b.tokens) w = .ret 1 w) := by
  have h2 : bsh_split_line envFail (str "   \t\n") world0
      = .stop (.exit EXIT_FAILURE) { world0 with err := str "bsh: allocation error\n" } := by
    decide
  refine ⟨by decide, h2, by decide, by decide, ?_⟩
  intro h
  obtain ⟨b, hb, _⟩ := h envFail (str "   \t\n") world0 (by decide)
  rw [h2] at hb
  cases hb

/-- C5, amended: for every line that is empty or made only of delimiter
characters: when the `malloc` of `bsh_split_line` (64 pointers) succeeds,
`bsh_split_line` returns the empty argument vector and `bsh_execute` on it
returns 1 and leaves the state as it was (nothing is written to standard
output or standard error), whatever the table of builtins and the launcher
are: no handler and no launcher takes part in the result; the same holds
for the dispatcher of the program.  When that `malloc` fails,
`bsh_split_line` writes `bsh: allocation error` to standard error and the
process exits with `EXIT_FAILURE`. -/

theorem blank_line_is_noop (env : Env) (line : List Char) (w : World)
    (h : ∀ c ∈ line, c ∈ BSH_TOK_DELIM) :
    (env.alloc_ok (alloc_bytes BSH_TOK_BUFSIZE) = true →
      ∃ b, bsh_split_line env line w = .ok b ∧ argv b.tokens = [] ∧
        (∀ (table : List Builtin) (launch : List CStr → World → Outcome) (w1 : World),
          bsh_execute table launch (argv b.tokens) w1 = .ret 1 w1) ∧
        (∀ (e : Env) (w1 : World), execute e (argv b.tokens) w1 = .ret 1 w1)) ∧
    (env.alloc_ok (alloc_bytes BSH_TOK_BUFSIZE) = false →
      bsh_split_line env line w
        = .stop (.exit EXIT_FAILURE) (w.eprint (str "bsh: allocation error\n"))) ∧
    alloc_bytes BSH_TOK_BUFSIZE = 64 * 8 := by
  have hnul : NUL ∉ line := fun hm => nul_not_delim (h NUL hm)
  have ht : line_tokens line = [] := by
    rw [line_tokens_nulFree line hnul]
    exact (nonDelimRuns_eq_nil_iff line).2 h
  have hal : allocOk env (line_tokens line).length = env.alloc_ok (alloc_bytes BSH_TOK_BUFSIZE) := by
    rw [ht]
    simp [allocOk, BSH_TOK_BUFSIZE, List.range_succ]
  have hlt : (line_tokens line).length < TOKENS_OVERFLOW := by
    rw [ht]
    decide
  refine ⟨?_, ?_, by decide⟩
  · intro hok
    have hargs : argv (finalBuf (line_tokens line)).tokens = [] := by
      rw [argv_finalBuf, ht]
    refine ⟨_, bsh_split_line_ok env line w (hal.trans hok) hlt, hargs, ?_, ?_⟩
    · intro table launch w1
      rw [hargs]
      rfl
    · intro e w1
      rw [hargs]
      rfl
  · intro hfail
    exact bsh_split_line_alloc_fail env line w hlt (hal.trans hfail)

/-- Witness of C5, amended, on the line made of three spaces, a tab and a
newline. -/
theorem blank_line_is_noop_witness :
    (∀ c ∈ str "   \t\n", c ∈ BSH_TOK_DELIM) ∧
    (∃ b, bsh_split_line envOk (str "   \t\n") world0 = .ok b ∧ argv b.tokens = [] ∧
      (∀ (table : List Builtin) (launch : List CStr → World → Outcome) (w1 : World),
        bsh_execute table launch (argv b.tokens) w1 = .ret 1 w1) ∧
      (∀ (e : Env) (w1 : World), execute e (argv b.tokens) w1 = .ret 1 w1)) ∧
    bsh_split_line envFail (str "   \t\n") world0
      = .stop (.exit EXIT_FAILURE) (world0.eprint (str "bsh: allocation error\n")) :=
  ⟨by decide,
   (blank_line_is_noop envOk (str "   \t\n") world0 (by decide)).1 rfl,
   (blank_line_is_noop envFail (str "   \t\n") world0 (by decide)).2.1 rfl⟩

/-- C6: for every argument vector whose first string is `echo`, `bsh_echo`
returns 1 and appends to standard output exactly the strings after the
first, joined by one space, then one newline; standard error and the rest
of the state are unchanged.  When the arguments are tokens (not empty, free
of delimiters), the text before the newline neither starts nor ends with a
space. -/

theorem bsh_echo_output (args : List CStr) (w : World) (h : args.head? = some (str "echo")) :
    bsh_echo args w
      = .ret 1 { w with out := w.out ++ List.intercalate (str " ") args.tail ++ str "\n" } ∧
    ((∀ a ∈ args.tail, a ≠ [] ∧ ∀ c ∈ a, c ∉ BSH_TOK_DELIM) →
      (List.intercalate (str " ") args.tail).head? ≠ some (Char.ofNat 32) ∧
      (List.intercalate (str " ") args.tail).getLast? ≠ some (Char.ofNat 32)) := by
  cases args with
  | nil => simp at h
  | cons a0 rest =>
    constructor
    · simp only [bsh_echo, echo_loop_eq, print_print, List.tail_cons]
      simp [World.print]
    · intro htok
      simp only [List.tail_cons] at htok ⊢
      have hsp : Char.ofNat 32 ∈ BSH_TOK_DELIM := by decide
      cases rest with
      | nil => simp [List.intercalate]
      | cons a r =>
        constructor
        · rw [intercalate_head _ a r (htok a (by simp)).1]
          intro he
          have ha := (htok a (by simp)).2 (Char.ofNat 32)
          cases a with
          | nil => simp at he
          | cons c cs =>
            simp only [List.head?_cons, Option.some.injEq] at he
            exact ha (by simp [he]) hsp
        · obtain ⟨x, hx, hlast⟩ := intercalate_getLast (str " ") (a :: r)
            (fun y hy => (htok y hy).1) (by simp)
          rw [hlast]
          intro he
          exact (htok x hx).2 _ (List.mem_of_getLast?_eq_some he) hsp

/-- Witness of C6: `echo a b c` prints `a b c` and a newline, `echo` alone
prints a newline. -/
theorem bsh_echo_output_witness :
    bsh_echo [str "echo", str "a", str "b", str "c"] world0
      = .ret 1 { world0 with out := str "a b c\n" } ∧
    bsh_echo [str "echo"] world0 = .ret 1 { world0 with out := str "\n" } :=
  ⟨(bsh_echo_output [str "echo", str "a", str "b", str "c"] world0 rfl).1.trans (by decide),
   (bsh_echo_output [str "echo"] world0 rfl).1.trans (by decide)⟩

/-- C7, the code at failing inputs: on a file that holds `abc` with no
final newline, `cat` prints `ab` and a newline: the last character of the
line is overwritten, whatever it is.  On a file that holds one line of
5000 characters `x` and a newline, `cat` prints 4094 `x`, a newline, 905
`x` and a newline: the line is cut at the size of the buffer and one
character of it is lost. -/

theorem bsh_cat_drops_last_char :
    (envOk.fopen_r (str "f") = some (str "abc") ∧
      bsh_cat envOk [str "cat", str "f"] world0
        = .ret 1 { world0 with out := str "ab\n" }) ∧
    (envLongLine.fopen_r (str "f")
        = some (List.replicate 5000 (Char.ofNat 120) ++ [Char.ofNat 10]) ∧
      bsh_cat envLongLine [str "cat", str "f"] world0
        = .ret 1 { world0 with out := List.replicate 4094 (Char.ofNat 120) ++ [Char.ofNat 10]
                    ++ (List.replicate 905 (Char.ofNat 120) ++ [Char.ofNat 10]) }) := by
  refine ⟨⟨rfl, by decide⟩, ⟨rfl, ?_⟩⟩
  apply bsh_cat_opened envLongLine _ _ _ _ _ rfl
  exact cat_loop_long_line 4096 _ 4095 905 (Char.ofNat 120) world0 (by decide) (by decide)
    rfl (by omega) (by omega) (Nat.le_add_left 3 _)

/-- C9: in the parent branch of `bsh_launch`, when the statuses reported by
the successive `waitpid` calls are `pre`, then `t`, then `post`, with no
status of `pre` terminal (neither exited nor signaled; a stopped status is
such a one) and `t` terminal (exited or signaled): `bsh_launch` returns 1
after it has called `waitpid` exactly `pre.length + 1` times, the statuses
it has seen being those of `pre`, then `t`: the wait ends at `t`, the first
terminal status, not before and not after; the rest of the state is
unchanged.  When the statuses reported are those of `pre` alone,
`bsh_launch` sees them all and does not return. -/

theorem bsh_launch_waits_for_terminal (pre post : List WaitStatus) (t : WaitStatus)
    (hpre : ∀ s ∈ pre, WIFEXITED s = false ∧ WIFSIGNALED s = false)
    (ht : WIFEXITED t = true ∨ WIFSIGNALED t = true) :
    (∀ (env : Env) (pid : Nat) (args : List CStr) (w : World),
      env.fork = .parent pid → env.waitpid = pre ++ t :: post →
      bsh_launch env args w = .ret 1 { w with waits := w.waits ++ pre ++ [t] }) ∧
    (∀ (env : Env) (pid : Nat) (args : List CStr) (w : World),
      env.fork = .parent pid → env.waitpid = pre →
      bsh_launch env args w = .stop .hang { w with waits := w.waits ++ pre }) ∧
    (∀ w : World, wait_loop (pre ++ t :: post) w
      = (true, { w with waits := w.waits ++ pre ++ [t] })) ∧
    (∀ w : World, wait_loop pre w = (false, { w with waits := w.waits ++ pre })) ∧
    (∀ s, WIFSTOPPED s = true → WIFEXITED s = false ∧ WIFSIGNALED s = false) := by
  have h1 : ∀ w : World, wait_loop (pre ++ t :: post) w
      = (true, { w with waits := w.waits ++ pre ++ [t] }) := by
    intro w
    rw [wait_loop_skip pre _ w hpre]
    rcases ht with h | h <;> simp [wait_loop, h]
  have h2 : ∀ w : World, wait_loop pre w = (false, { w with waits := w.waits ++ pre }) := by
    intro w
    have := wait_loop_skip pre [] w hpre
    simpa [wait_loop] using this
  refine ⟨?_, ?_, h1, h2, ?_⟩
  · intro env pid args w hf hw
    simp only [bsh_launch, hf, hw, h1]
  · intro env pid args w hf hw
    simp only [bsh_launch, hf, hw, h2]
  · intro s hs
    cases s <;> simp_all [WIFSTOPPED, WIFEXITED, WIFSIGNALED]

/-- Witness of C9: with the child stopped twice and then killed by a
signal, `bsh_launch` returns 1 after three `waitpid` calls, the last one
reporting the signal; with the child stopped once and then exited, after
two; with the child stopped and nothing after, it does not return. -/
theorem bsh_launch_waits_for_terminal_witness :
    bsh_launch { envOk with waitpid := [.stopped 19, .stopped 20, .signaled 9, .exited 0] }
        [str "sleep", str "1"] world0
      = .ret 1 { world0 with waits := [.stopped 19, .stopped 20, .signaled 9] } ∧
    bsh_launch envOk [str "sleep", str "1"] world0
      = .ret 1 { world0 with waits := [.stopped 19, .exited 0] } ∧
    bsh_launch envChildNeverEnds [str "sleep", str "1"] world0
      = .stop .hang { world0 with waits := [.stopped 19] } :=
  ⟨(bsh_launch_waits_for_terminal [.stopped 19, .stopped 20] [.exited 0] (.signaled 9)
      (by decide) (by decide)).1
      { envOk with waitpid := [.stopped 19, .stopped 20, .signaled 9, .exited 0] } 1
      [str "sleep", str "1"] world0 rfl rfl,
   (bsh_launch_waits_for_terminal [.stopped 19] [] (.exited 0)
      (by decide) (by decide)).1 envOk 1 [str "sleep", str "1"] world0 rfl rfl,
   (bsh_launch_waits_for_terminal [.stopped 19] [] (.exited 0)
      (by decide) (by decide)).2.1 envChildNeverEnds 1 [str "sleep", str "1"] world0 rfl rfl⟩

/-- C10, counterexample: the number of tokens has an upper bound.  On the
line made of 2147483584 (2^31 - 64) tokens `a`, with every allocation
succeeding, `bsh_split_line` does not return: once the last token is
stored, `position` has reached `bufsize`, which is 2147483584, and
`bufsize += BSH_TOK_BUFSIZE` exceeds `INT_MAX`; the capacity that the claim
gives for the return, `64 * (n / 64 + 1)`, is not a value of `int`. -/

theorem bsh_split_line_bufsize_overflow :
    (line_tokens (List.replicate 2147483584 (str "a ")).flatten).length = 2147483584 ∧
    (∀ n, allocOk envOk n = true) ∧
    bsh_split_line envOk (List.replicate 2147483584 (str "a ")).flatten world0
      = .stop (.fault .signedOverflow) world0 ∧
    INT_MAX < 64 * (2147483584 / 64 + 1) ∧
    ¬ (∀ (line : List Char), ∃ b, bsh_split_line envOk line world0 = .ok b ∧
        b.bufsize = 64 * ((line_tokens line).length / 64 + 1)) := by
  have hlen : (line_tokens (List.replicate 2147483584 (str "a ")).flatten).length
      = 2147483584 := by
    rw [line_tokens_replicate, List.length_replicate]
  have hal : ∀ n, allocOk envOk n = true := fun n => allocOk_of_all envOk n (fun _ => rfl)
  have hov : bsh_split_line envOk (List.replicate 2147483584 (str "a ")).flatten world0
      = .stop (.fault .signedOverflow) world0 := by
    apply bsh_split_line_overflow _ _ _ (hal _)
    rw [hlen]
    decide
  refine ⟨hlen, hal, hov, by decide, ?_⟩
  intro h
  obtain ⟨b, hb, _⟩ := h (List.replicate 2147483584 (str "a ")).flatten
  rw [hov] at hb
  cases hb

/-- C10, amended: for every line whose number `n` of tokens is less than
2147483584 (2^31 - 64), and assuming that the allocations succeed,
`bsh_split_line` returns without any store outside the array.  The stores
are made at the indices `0, 1, ..., n` (the `n` tokens, then the NULL
terminator at index `n`), and at the store at index `i` the capacity
`bufsize` is `64 * (i / 64 + 1)`, which is greater than `i`: the capacity
starts at 64 and grows in steps of 64.  On return the array holds `bufsize`
cells, `bufsize = 64 * (n / 64 + 1)`, and `bufsize` does not exceed
`INT_MAX`.  The counters are bounded by the length of the line (`n` by the
length, `bufsize` by the length plus 64).  Every `n` below 2147483584
occurs, multiples of 64 included. -/

theorem bsh_split_line_capacity (env : Env) (line : List Char) (w : World)
    (hn : (line_tokens line).length < TOKENS_OVERFLOW)
    (hal : allocOk env (line_tokens line).length = true) :
    (∃ b, bsh_split_line env line w = .ok b ∧
      b.position = (line_tokens line).length ∧
      (argv b.tokens).length = b.position ∧
      b.tokens.take (b.position + 1) = (argv b.tokens).map Cell.tok ++ [Cell.null] ∧
      b.stores = (List.range (b.position + 1)).map (fun i => (i, 64 * (i / 64 + 1))) ∧
      (∀ pb ∈ b.stores, pb.1 < pb.2) ∧
      b.tokens.length = b.bufsize ∧
      b.bufsize = 64 * (b.position / 64 + 1) ∧
      b.bufsize ≤ INT_MAX ∧
      b.position ≤ line.length ∧ b.bufsize ≤ line.length + 64) ∧
    (∀ n : Nat, n < TOKENS_OVERFLOW → ∀ e : Env, allocOk e n = true →
      ∃ l b, bsh_split_line e l w = .ok b ∧ b.position = n) ∧
    TOKENS_OVERFLOW = 2147483584 := by
  refine ⟨?_, ?_, by decide⟩
  · refine ⟨_, bsh_split_line_ok env line w hal hn, ?_⟩
    have hbound := line_tokens_length_le line
    obtain ⟨f1, f2, f3, f4, f5, f6, f7⟩ := finalBuf_facts (line_tokens line)
    refine ⟨f7, f1, f2, f3, f4, f5, f6, ?_, ?_, ?_⟩
    · rw [f6, f7]
      unfold TOKENS_OVERFLOW INT_MAX at hn
      unfold INT_MAX
      omega
    · rw [f7]
      exact hbound
    · rw [f6, f7]
      omega
  · intro n hlt e he
    have hl := line_tokens_replicate n
    refine ⟨(List.replicate n (str "a ")).flatten, _,
      bsh_split_line_ok e _ w (by rw [hl, List.length_replicate]; exact he)
        (by rw [hl, List.length_replicate]; exact hlt), ?_⟩
    rw [hl]
    simp [finalBuf]

/-- Witness of C10, amended, on the line made of 64 tokens `a`: the array
grows once and the capacity on return is 128. -/
theorem bsh_split_line_capacity_witness :
    (line_tokens (List.replicate 64 (str "a ")).flatten).length < TOKENS_OVERFLOW ∧
    allocOk envOk (line_tokens (List.replicate 64 (str "a ")).flatten).length = true ∧
    ∃ b, bsh_split_line envOk (List.replicate 64 (str "a ")).flatten world0 = .ok b ∧
      b.position = 64 ∧ b.bufsize = 128 ∧ b.tokens.length = 128 := by
  have hl : (line_tokens (List.replicate 64 (str "a ")).flatten).length = 64 := by
    rw [line_tokens_replicate, List.length_replicate]
  have hn : (line_tokens (List.replicate 64 (str "a ")).flatten).length < TOKENS_OVERFLOW := by
    rw [hl]
    decide
  have hal := allocOk_of_all envOk
    (line_tokens (List.replicate 64 (str "a ")).flatten).length (fun _ => rfl)
  obtain ⟨b, hb, hp, _, _, _, _, hlen, hbs, _⟩ :=
    (bsh_split_line_capacity envOk (List.replicate 64 (str "a ")).flatten world0 hn hal).1
  rw [hl] at hp
  rw [hp] at hbs
  exact ⟨hn, hal, b, hb, hp, hbs, hlen.trans hbs⟩

end BShell
